import Mathlib

/-!
Verification of `factorial.c`

A shallow embedding of `src/lexer/unit_test_fixtures/factorial.c`:

* the C type `int` is modelled by `Int` together with `wrap32`, the reduction of a
  mathematical result to its 32-bit two's-complement representative, applied after
  every `int` operation of the source (`n - 1`, `n * ...`, `size + 1`, `i++`);
* the recursive function `factorial` is modelled with a bound on the depth of nested
  calls (`none` = no value within that depth);
* `main` is modelled by explicit state passing over its locals, the unread part of
  standard input and the text written to standard output.
-/

namespace Factorial

/-! ## The C type `int` -/

/-- Smallest value of `int`. -/
def INT_MIN : Int := -2147483648

/-- Largest value of `int`. -/
def INT_MAX : Int := 2147483647

/-- The 32-bit two's-complement representative of a mathematical integer. -/
def wrap32 (x : Int) : Int := (x + 2147483648) % 4294967296 - 2147483648

/-- Membership in the range of `int`. -/
def isInt (x : Int) : Prop := INT_MIN ≤ x ∧ x ≤ INT_MAX

instance (x : Int) : Decidable (isInt x) := by unfold isInt; infer_instance

/-! ## `factorial` -/

/-- The function `int factorial(int n)` of the source.  The first argument bounds the
depth of nested calls: `factorial d n = none` means that the call has not returned
within `d` nested activations. -/
def factorial : Nat → Int → Option Int
  | 0, _ => none
  | d + 1, n =>
    if n = 0 ∨ n = 1 then some 1
    else
      match factorial d (wrap32 (n - 1)) with
      | none => none
      | some r => some (wrap32 (n * r))


/-! ## Standard input, the C library, and `main` -/

/-- The macro `MAX_SIZE` of the source. -/
def MAX_SIZE : Int := 100

/-- The C library's `isspace` in the C locale. -/
def isspace (c : Char) : Bool := c.toNat == 32 || (9 ≤ c.toNat && c.toNat ≤ 13)

/-- The C library's `isdigit`. -/
def isdigit (c : Char) : Bool := 48 ≤ c.toNat && c.toNat ≤ 57

/-- What `scanf("%s", input)` can deliver into `char input[10]` with defined behaviour:
a non-empty run of at most nine characters, none of them white space or NUL. -/
def wellFormed (cs : List Char) : Bool :=
  !cs.isEmpty && decide (cs.length ≤ 9) && cs.all (fun c => !isspace c && c.toNat != 0)

/-- An input token: one white-space-delimited word of standard input that fits the
source's ten-byte buffer `input` together with its terminator. -/
structure Token where
  chars : List Char
  wf : wellFormed chars = true

/-- Leading decimal digits of a string, accumulated left to right from `acc`. -/
def atoiDigits : Int → List Char → Int
  | acc, [] => acc
  | acc, c :: cs =>
    if isdigit c then atoiDigits (acc * 10 + ((c.toNat : Int) - 48)) cs else acc

/-- Modelled from the spec: `atoi` is the C library's conversion routine and not part of
the source file.  It is the lenient coercion of the specification: white space is skipped,
an optional sign is read, the leading decimal digits are parsed, and a string with no such
digits yields `0`; no error is raised.  The result is delivered as an `int`. -/
def atoi (s : List Char) : Int :=
  match s.dropWhile isspace with
  | [] => 0
  | c :: cs =>
    if c = '-' then wrap32 (- atoiDigits 0 cs)
    else if c = '+' then wrap32 (atoiDigits 0 cs)
    else wrap32 (atoiDigits 0 (c :: cs))

/-- The conversion `%d` of `printf`. -/
def fmtD (x : Int) : String := toString x

/-- Ways in which a run leaves the behaviour defined by the model. -/
inductive Fault where
  /-- the bound on iterations or on nested calls was used up -/
  | depth
  /-- `numbers[i]` with `i` outside `0 .. MAX_SIZE - 1` -/
  | bounds
  /-- a read of storage that was never written -/
  | uninit
  deriving DecidableEq

/-- The locals of `main` together with the unread tokens of standard input and the
pieces of text written to standard output, one per `printf` call, oldest first. -/
structure State where
  /-- `int numbers[MAX_SIZE]`; `none` marks a cell that was never written -/
  numbers : List (Option Int)
  /-- `int size` -/
  size : Int
  /-- `char input[10]` as a C string; `none` until the first successful `scanf` -/
  input : Option (List Char)
  stdin : List Token
  stdout : List String

/-- The state at entry of `main`. -/
def start (tokens : List Token) : State :=
  { numbers := List.replicate MAX_SIZE.toNat none
    size := 0
    input := none
    stdin := tokens
    stdout := [] }

/-- One call of `printf` whose formatted text is `text`. -/
def printf (text : String) (s : State) : State :=
  { s with stdout := s.stdout ++ [text] }

/-- The call `scanf("%s", input)`: the next token is stored in `input`; at end of input
nothing is stored.  The source ignores the return value. -/
def scanf (s : State) : State :=
  match s.stdin with
  | [] => s
  | t :: rest => { s with input := some t.chars, stdin := rest }

/-- The test `input[0] == 'q' || input[0] == 'Q'` on the C string in `input`. -/
def isQuit (buf : List Char) : Bool :=
  match buf with
  | [] => false
  | c :: _ => c == 'q' || c == 'Q'

/-- The assignment `numbers[i] = v`. -/
def store (a : List (Option Int)) (i : Int) (v : Int) : Option (List (Option Int)) :=
  if 0 ≤ i ∧ i < a.length then some (a.set i.toNat (some v)) else none

/-- The read `numbers[i]`. -/
def load (a : List (Option Int)) (i : Int) : Except Fault Int :=
  if 0 ≤ i ∧ i < a.length then
    match a.getD i.toNat none with
    | some v => .ok v
    | none => .error .uninit
  else .error .bounds

/-- How one pass through the body of the `while` loop ends. -/
inductive Step where
  /-- the end of the body was reached -/
  | next (s : State)
  /-- the `break` was taken -/
  | quit (s : State)
  | fault (f : Fault)

/-- The text of the prompt `printf("Number %d: ", size + 1)`. -/
def prompt (size : Int) : String := "Number " ++ fmtD (wrap32 (size + 1)) ++ ": "

/-- The body of the `while` loop of `main`. -/
def loopBody (s : State) : Step :=
  let s1 := printf (prompt s.size) s
  let s2 := scanf s1
  match s2.input with
  | none => .fault .uninit
  | some buf =>
    if isQuit buf then .quit s2
    else
      match store s2.numbers s2.size (atoi buf) with
      | none => .fault .bounds
      | some a => .next { s2 with numbers := a, size := wrap32 (s2.size + 1) }

/-- The loop `while (size < MAX_SIZE) { ... }`, run for at most `d` tests of its
condition. -/
def whileLoop : Nat → State → Except Fault State
  | 0, _ => .error .depth
  | d + 1, s =>
    if s.size < MAX_SIZE then
      match loopBody s with
      | .next s1 => whileLoop d s1
      | .quit s1 => .ok s1
      | .fault f => .error f
    else .ok s

/-- The text of `printf("%d! = %d\n", v, r)`. -/
def resultLine (v r : Int) : String := fmtD v ++ "! = " ++ fmtD r ++ "\n"

/-- The loop `for (int i = 0; i < size; i++) printf(..., numbers[i], factorial(numbers[i]))`
from the current value of `i`, run for at most `d` tests of its condition, every call of
`factorial` being allowed `fd` nested activations. -/
def forLoop (fd : Nat) : Nat → Int → State → Except Fault State
  | 0, _, _ => .error .depth
  | d + 1, i, s =>
    if i < s.size then
      match load s.numbers i with
      | .error f => .error f
      | .ok v =>
        match factorial fd v with
        | none => .error .depth
        | some r => forLoop fd d (wrap32 (i + 1)) (printf (resultLine v r) s)
    else .ok s

/-- The first line written by `main`. -/
def banner : String := "Enter up to " ++ fmtD MAX_SIZE ++ " numbers (enter 'q' to quit):\n"

/-- The header written between collection and evaluation. -/
def header : String := "\nFactorials of the entered numbers:\n"

/-- The function `main` of the source: the exit code and the text written to standard
output.  `d` bounds the iterations of each loop and the nesting of `factorial`. -/
def main (d : Nat) (tokens : List Token) : Except Fault (Int × List String) :=
  match whileLoop d (printf banner (start tokens)) with
  | .error f => .error f
  | .ok s =>
    match forLoop d d 0 (printf header s) with
    | .error f => .error f
    | .ok s1 => .ok (0, s1.stdout)

/-- The Numbers Buffer of the specification: the cells `numbers[0 .. size - 1]`. -/
def buffer (s : State) : List (Option Int) := s.numbers.take s.size.toNat

/-- A token from its characters, when they are well formed. -/
def tok (cs : List Char) (h : wellFormed cs = true) : Token := ⟨cs, h⟩

/-- The input `3 5 q`. -/
def input35q : List Token := [tok ['3'] rfl, tok ['5'] rfl, tok ['q'] rfl]

/-- The input `q`. -/
def inputQ : List Token := [tok ['q'] rfl]

/-- The input `abc q`. -/
def inputAbc : List Token := [tok ['a', 'b', 'c'] rfl, tok ['q'] rfl]

/-- The input `5q 12abc q`. -/
def input5q : List Token :=
  [tok ['5', 'q'] rfl, tok ['1', '2', 'a', 'b', 'c'] rfl, tok ['q'] rfl]

/-- The input `3` followed by end of input. -/
def input3 : List Token := [tok ['3'] rfl]


/-! ## Auxiliary notions used in the statements -/

/-- Number of nested activations of `factorial` that a call with argument `n` opens before
the base case is met, the first call included: `1` for `0`, `n` for `1 ≤ n`, and for a
negative `n` the `n + 2^31 + 1` activations down to `INT_MIN` followed by the `2^31 - 1`
activations from `INT_MAX` down to `1`. -/
def depth (n : Int) : Nat :=
  if n = 0 then 1 else if 0 < n then n.toNat else (n + 4294967296).toNat

/-- The arguments of the first `d` nested activations that the call `factorial(n)` opens,
outermost first; the list ends early at an argument that meets the base case. -/
def callArgs : Nat → Int → List Int
  | 0, _ => []
  | d + 1, n => n :: (if n = 0 ∨ n = 1 then [] else callArgs d (wrap32 (n - 1)))

/-- The invariant of the collection loop. -/
def Inv (s : State) : Prop :=
  (s.numbers.length : Int) = MAX_SIZE ∧ 0 ≤ s.size ∧ s.size ≤ MAX_SIZE

/-- The string that the body of the loop examines after its `scanf`: the next token, or
at end of input what `input` already holds. -/
def current (s : State) : Option (List Char) :=
  match s.stdin with
  | [] => s.input
  | t :: _ => some t.chars

/-- The state after a pass through the body that appends the coercion of `buf`. -/
def advance (s : State) (buf : List Char) : State :=
  { numbers := s.numbers.set s.size.toNat (some (atoi buf))
    size := s.size + 1
    input := some buf
    stdin := s.stdin.tail
    stdout := s.stdout ++ [prompt s.size] }

/-- The state after a pass through the body that meets the sentinel `buf`. -/
def leave (s : State) (buf : List Char) : State :=
  { s with input := some buf, stdin := s.stdin.tail, stdout := s.stdout ++ [prompt s.size] }

/-- Every cell of the Numbers Buffer has been written, with a value of type `int`. -/
def Filled (s : State) : Prop :=
  ∃ vs : List Int, buffer s = vs.map some ∧ ∀ v ∈ vs, isInt v

/-- The states in which the condition of the `while` loop of `main` is tested, for the
input `tokens`, together with the states in which the loop is left by `break`. -/
inductive Reachable (tokens : List Token) : State → Prop where
  | entry : Reachable tokens (printf banner (start tokens))
  | next (s s1 : State) : Reachable tokens s → s.size < MAX_SIZE →
      loopBody s = .next s1 → Reachable tokens s1
  | quit (s s1 : State) : Reachable tokens s → s.size < MAX_SIZE →
      loopBody s = .quit s1 → Reachable tokens s1

/-- A token is accepted when it is not a sentinel: its first character is neither `q`
nor `Q`. -/
def accepted (t : Token) : Bool := !isQuit t.chars

/-- The integer coercion of a token, as a written cell of `numbers`. -/
def cell (t : Token) : Option Int := some (atoi t.chars)

/-- The string begins with a decimal digit. -/
def leadsWithDigit (cs : List Char) : Bool :=
  match cs with
  | [] => false
  | c :: _ => isdigit c

/-- The string begins with a decimal numeral: a digit, or a sign followed by a digit.  A
token for which this fails is a non-numeric token. -/
def startsNumeric (cs : List Char) : Bool :=
  match cs with
  | [] => false
  | c :: rest => isdigit c || ((c == '+' || c == '-') && leadsWithDigit rest)

/-- The natural number denoted by a string of decimal digits, most significant first. -/
def decimalValue (ds : List Char) : Nat :=
  Nat.ofDigits 10 ((ds.map (fun c => c.toNat - 48)).reverse)

/-- The prompts written by `n` consecutive passes through the body that start with
`size = k`. -/
def promptsFrom : Int → Nat → List String
  | _, 0 => []
  | k, n + 1 => prompt k :: promptsFrom (k + 1) n

/-- The contents of `input` after the tokens `pre` were read into it one after another. -/
def lastInput : Option (List Char) → List Token → Option (List Char)
  | old, [] => old
  | _, t :: pre => lastInput (some t.chars) pre

/-- An input of 102 tokens: one hundred times `7`, then `8`, then `q`. -/
def input102 : List Token :=
  List.replicate 100 (tok ['7'] rfl) ++ [tok ['8'] rfl, tok ['q'] rfl]

/-- The input `34 q`. -/
def input34 : List Token := [tok ['3', '4'] rfl, tok ['q'] rfl]

/-- The states in which the condition of the `while` loop of `main` is tested, for the
input `tokens`: the state at loop entry and every state that a completed pass through the
body leads to. -/
inductive LoopHead (tokens : List Token) : State → Prop where
  | entry : LoopHead tokens (printf banner (start tokens))
  | next (s s1 : State) : LoopHead tokens s → s.size < MAX_SIZE →
      loopBody s = .next s1 → LoopHead tokens s1

/-- The prompts `Number 1: ` to `Number p: `, in that order. -/
def promptsUpTo (p : Nat) : List String :=
  (List.range p).map (fun (k : Nat) => "Number " ++ toString (k + 1) ++ ": ")

/-! ## The collection loop with a log of its input and output calls -/

/-- One call of the C library made by the collection loop. -/
inductive Event where
  /-- a `printf` call and the text it wrote -/
  | wrote (text : String)
  /-- a `scanf("%s", input)` call and the token it stored, `none` at end of input -/
  | read (token : Option (List Char))

/-- A state of `main` together with the calls of `printf` and `scanf` made so far, in the
order in which they were made, oldest first. -/
structure Logged where
  state : State
  events : List Event

/-- The logged state at entry of `main`. -/
def startLogged (tokens : List Token) : Logged :=
  { state := start tokens, events := [] }

/-- The call `printf` of `text`, logged. -/
def printfLogged (text : String) (t : Logged) : Logged :=
  { state := printf text t.state, events := t.events ++ [.wrote text] }

/-- The call `scanf("%s", input)`, logged with the token it stores. -/
def scanfLogged (t : Logged) : Logged :=
  { state := scanf t.state
    events := t.events ++ [.read (t.state.stdin.head?.map Token.chars)] }

/-- How one logged pass through the body of the `while` loop ends. -/
inductive StepLogged where
  | next (t : Logged)
  | quit (t : Logged)
  | fault (f : Fault)

/-- The body of the `while` loop of `main`, statement by statement as in `loopBody`, with
every call of `printf` and `scanf` logged at the moment it is made. -/
def loopBodyLogged (t : Logged) : StepLogged :=
  let t1 := printfLogged (prompt t.state.size) t
  let t2 := scanfLogged t1
  match t2.state.input with
  | none => .fault .uninit
  | some buf =>
    if isQuit buf then .quit t2
    else
      match store t2.state.numbers t2.state.size (atoi buf) with
      | none => .fault .bounds
      | some a =>
        .next { t2 with state := { t2.state with numbers := a, size := wrap32 (t2.state.size + 1) } }

/-- The loop `while (size < MAX_SIZE) { ... }` over logged states, run for at most `d`
tests of its condition. -/
def whileLoopLogged : Nat → Logged → Except Fault Logged
  | 0, _ => .error .depth
  | d + 1, t =>
    if t.state.size < MAX_SIZE then
      match loopBodyLogged t with
      | .next t1 => whileLoopLogged d t1
      | .quit t1 => .ok t1
      | .fault f => .error f
    else .ok t

/-- The calls made by one pass through the body from the state `s`: the prompt, then the
read of the next token. -/
def passEvents (s : State) : List Event :=
  [.wrote (prompt s.size), .read (s.stdin.head?.map Token.chars)]

/-- The log of `p` passes on the input `tokens`: for `k = 1, ..., p` in turn the prompt
`Number k: ` followed by the read of the `k`-th token (`none` when input has ended). -/
def promptReadLog (tokens : List Token) : Nat → List Event
  | 0 => []
  | p + 1 => promptReadLog tokens p ++
      [.wrote ("Number " ++ toString (p + 1) ++ ": "), .read (tokens[p]?.map Token.chars)]

/-! ## Facts about `int` arithmetic -/

theorem wrap32_of_isInt {x : Int} (h : isInt x) : wrap32 x = x := by
  unfold isInt INT_MIN INT_MAX at h
  unfold wrap32
  omega

theorem wrap32_isInt (x : Int) : isInt (wrap32 x) := by
  unfold isInt INT_MIN INT_MAX wrap32
  omega

theorem wrap32_emod (x : Int) : wrap32 x % 4294967296 = x % 4294967296 := by
  unfold wrap32
  omega

theorem wrap32_congr {x y : Int} (h : x % 4294967296 = y % 4294967296) :
    wrap32 x = wrap32 y := by
  unfold wrap32
  omega

theorem wrap32_mul_wrap32 (a b : Int) : wrap32 (a * wrap32 b) = wrap32 (a * b) := by
  apply wrap32_congr
  rw [Int.mul_emod, wrap32_emod, ← Int.mul_emod]

theorem wrap32_pred {n : Int} (h0 : 0 < n) (h1 : n ≤ INT_MAX) : wrap32 (n - 1) = n - 1 := by
  unfold INT_MAX at h1
  unfold wrap32
  omega

/-! ## Facts about `factorial` -/

theorem factorial_succ_base (d : Nat) (n : Int) (h : n = 0 ∨ n = 1) :
    factorial (d + 1) n = some 1 := by
  simp [factorial, h]

theorem factorial_succ_rec (d : Nat) (n : Int) (h0 : n ≠ 0) (h1 : n ≠ 1) :
    factorial (d + 1) n =
      match factorial d (wrap32 (n - 1)) with
      | none => none
      | some r => some (wrap32 (n * r)) := by
  simp [factorial, h0, h1]

/-- A call that returns within depth `d` returns the same value within any larger depth. -/
theorem factorial_mono_succ : ∀ (d : Nat) (n v : Int),
    factorial d n = some v → factorial (d + 1) n = some v := by
  intro d
  induction d with
  | zero => intro n v h; simp [factorial] at h
  | succ d ih =>
    intro n v h
    by_cases hb : n = 0 ∨ n = 1
    · rw [factorial_succ_base _ _ hb] at h ⊢
      exact h
    · have h0 : n ≠ 0 := fun e => hb (Or.inl e)
      have h1 : n ≠ 1 := fun e => hb (Or.inr e)
      rw [factorial_succ_rec _ _ h0 h1] at h ⊢
      cases hr : factorial d (wrap32 (n - 1)) with
      | none => rw [hr] at h; simp at h
      | some r =>
        rw [hr] at h
        rw [ih _ _ hr]
        exact h

theorem factorial_mono {d e : Nat} {n v : Int} (hde : d ≤ e)
    (h : factorial d n = some v) : factorial e n = some v := by
  induction hde with
  | refl => exact h
  | step _ ih => exact factorial_mono_succ _ _ _ ih

/-- On `1 ≤ n ≤ INT_MAX` a depth of `n` activations suffices and the value is `n!` reduced
to 32 bits. -/
theorem factorial_pos_eq : ∀ k : Nat, ((k : Int) + 1 ≤ INT_MAX) →
    factorial (k + 1) ((k : Int) + 1) = some (wrap32 ((Nat.factorial (k + 1) : Nat) : Int)) := by
  intro k
  induction k with
  | zero => intro _; decide
  | succ k ih =>
    intro hk
    have hk' : (k : Int) + 1 ≤ INT_MAX := by push_cast at hk; omega
    have h0 : ((k + 1 : Nat) : Int) + 1 ≠ 0 := by push_cast; omega
    have h1 : ((k + 1 : Nat) : Int) + 1 ≠ 1 := by push_cast; omega
    rw [factorial_succ_rec _ _ h0 h1]
    have hp : wrap32 (((k + 1 : Nat) : Int) + 1 - 1) = (k : Int) + 1 := by
      have : ((k + 1 : Nat) : Int) + 1 - 1 = (k : Int) + 1 := by push_cast; ring
      rw [this]
      apply wrap32_of_isInt
      unfold isInt INT_MIN
      constructor
      · omega
      · exact hk'
    rw [hp, ih hk']
    simp only
    rw [wrap32_mul_wrap32]
    have e : (((k + 1 : Nat) : Int) + 1) * ((Nat.factorial (k + 1) : Nat) : Int)
        = ((Nat.factorial (k + 1 + 1) : Nat) : Int) := by
      rw [Nat.factorial_succ (k + 1)]
      push_cast
      ring
    rw [e]

theorem factorial_nonneg_eq (n : Nat) (hn : (n : Int) ≤ INT_MAX) :
    factorial (n + 1) (n : Int) = some (wrap32 ((Nat.factorial n : Nat) : Int)) := by
  cases n with
  | zero => decide
  | succ k =>
    have h := factorial_pos_eq k (by push_cast at hn; exact hn)
    have h2 := factorial_mono_succ _ _ _ h
    simpa using h2

theorem depth_pos (n : Int) (hn : isInt n) : 0 < depth n := by
  unfold isInt INT_MIN INT_MAX at hn
  unfold depth
  split_ifs <;> omega

theorem depth_step (n : Int) (hn : isInt n) (h0 : n ≠ 0) (h1 : n ≠ 1) :
    depth (wrap32 (n - 1)) + 1 = depth n := by
  unfold isInt INT_MIN INT_MAX at hn
  unfold depth wrap32
  split_ifs <;> omega

/-- No call returns within fewer activations than `depth` counts. -/
theorem factorial_none_of_lt_depth : ∀ (d : Nat) (n : Int), isInt n → d < depth n →
    factorial d n = none := by
  intro d
  induction d with
  | zero => intro n _ _; rfl
  | succ d ih =>
    intro n hn hd
    by_cases hb : n = 0 ∨ n = 1
    · exfalso
      rcases hb with rfl | rfl <;> simp [depth] at hd
    · have h0 : n ≠ 0 := fun e => hb (Or.inl e)
      have h1 : n ≠ 1 := fun e => hb (Or.inr e)
      rw [factorial_succ_rec _ _ h0 h1]
      have hs := depth_step n hn h0 h1
      rw [ih (wrap32 (n - 1)) (wrap32_isInt _) (by omega)]

/-- Every call on an `int` returns within `depth` activations. -/
theorem factorial_some_at_depth : ∀ (d : Nat) (n : Int), isInt n → depth n = d →
    ∃ v, factorial d n = some v := by
  intro d
  induction d with
  | zero =>
    intro n hn hd
    have := depth_pos n hn
    omega
  | succ d ih =>
    intro n hn hd
    by_cases hb : n = 0 ∨ n = 1
    · exact ⟨1, factorial_succ_base _ _ hb⟩
    · have h0 : n ≠ 0 := fun e => hb (Or.inl e)
      have h1 : n ≠ 1 := fun e => hb (Or.inr e)
      have hs := depth_step n hn h0 h1
      obtain ⟨r, hr⟩ := ih (wrap32 (n - 1)) (wrap32_isInt _) (by omega)
      refine ⟨wrap32 (n * r), ?_⟩
      rw [factorial_succ_rec _ _ h0 h1, hr]

theorem wrap32_factorial_even (k : Nat) (hk : 2 ≤ k) :
    wrap32 ((Nat.factorial k : Nat) : Int) % 2 = 0 := by
  obtain ⟨c, hc⟩ := Nat.dvd_factorial (by decide : 0 < 2) hk
  rw [hc]
  unfold wrap32
  push_cast
  omega

/-- The call `factorial(INT_MIN)`: the argument of its recursive call is `INT_MAX`. -/
theorem factorial_INT_MIN : factorial 2147483648 INT_MIN = some 0 := by
  have hmax := factorial_pos_eq 2147483646 (by unfold INT_MAX; norm_num)
  have hev := wrap32_factorial_even (2147483646 + 1) (by norm_num)
  generalize wrap32 ((Nat.factorial (2147483646 + 1) : Nat) : Int) = r at hmax hev
  have e1 : ((2147483646 : Nat) : Int) + 1 = INT_MAX := by unfold INT_MAX; norm_num
  rw [e1] at hmax
  have e2 : wrap32 (INT_MIN - 1) = INT_MAX := by unfold wrap32 INT_MIN INT_MAX; norm_num
  have e3 : (2147483648 : Nat) = 2147483646 + 1 + 1 := by norm_num
  rw [e3, factorial_succ_rec _ _ (by unfold INT_MIN; norm_num) (by unfold INT_MIN; norm_num),
    e2, hmax]
  have e4 : wrap32 (INT_MIN * r) = 0 := by
    unfold wrap32 INT_MIN
    omega
  simp only [e4]

/-- Under 32-bit wrapping every call on a negative `int` returns `0`, at depth
`n + 2^32`. -/
theorem factorial_neg_eq : ∀ j : Nat, (j : Int) < 2147483648 →
    factorial (2147483648 + j) (INT_MIN + j) = some 0 := by
  intro j
  induction j with
  | zero => intro _; simpa using factorial_INT_MIN
  | succ j ih =>
    intro hj
    have hj' : (j : Int) < 2147483648 := by push_cast at hj; omega
    have h0 : INT_MIN + ((j + 1 : Nat) : Int) ≠ 0 := by unfold INT_MIN; push_cast at hj ⊢; omega
    have h1 : INT_MIN + ((j + 1 : Nat) : Int) ≠ 1 := by unfold INT_MIN; push_cast at hj ⊢; omega
    have hp : wrap32 (INT_MIN + ((j + 1 : Nat) : Int) - 1) = INT_MIN + (j : Int) := by
      unfold wrap32 INT_MIN
      push_cast at hj ⊢
      omega
    have e : 2147483648 + (j + 1) = (2147483648 + j) + 1 := by omega
    rw [e, factorial_succ_rec _ _ h0 h1, hp, ih hj']
    simp only [mul_zero]
    rfl

/-! ## Facts about the collection loop -/

theorem scanf_input (s : State) (text : String) :
    (scanf (printf text s)).input = current s := by
  unfold scanf printf current
  cases h : s.stdin <;> simp

theorem scanf_printf (s : State) (text : String) (buf : List Char)
    (h : current s = some buf) :
    scanf (printf text s) =
      { s with input := some buf, stdin := s.stdin.tail, stdout := s.stdout ++ [text] } := by
  unfold scanf printf
  unfold current at h
  cases hs : s.stdin with
  | nil =>
    rw [hs] at h
    simp only at h
    simp [h]
  | cons t rest =>
    rw [hs] at h
    simp only [Option.some.injEq] at h
    simp [h]

theorem loopBody_uninit (s : State) (h : current s = none) :
    loopBody s = .fault .uninit := by
  unfold loopBody
  simp only [scanf_input, h]

theorem loopBody_quit (s : State) (buf : List Char) (h : current s = some buf)
    (hq : isQuit buf = true) : loopBody s = .quit (leave s buf) := by
  unfold loopBody
  simp only [scanf_input, h, hq, if_true, scanf_printf s _ buf h]
  rfl

theorem loopBody_next (s : State) (buf : List Char) (hinv : Inv s) (hlt : s.size < MAX_SIZE)
    (h : current s = some buf) (hq : isQuit buf = false) :
    loopBody s = .next (advance s buf) := by
  obtain ⟨hlen, h0, _⟩ := hinv
  have hw : wrap32 (s.size + 1) = s.size + 1 := by
    apply wrap32_of_isInt
    unfold isInt INT_MIN INT_MAX
    unfold MAX_SIZE at hlt
    omega
  have hst : store s.numbers s.size (atoi buf) =
      some (s.numbers.set s.size.toNat (some (atoi buf))) := by
    unfold store
    rw [if_pos]
    exact ⟨h0, by rw [hlen]; exact hlt⟩
  unfold loopBody
  simp only [scanf_input, h, hq, scanf_printf s _ buf h, hst, hw]
  rfl

theorem take_succ_set {α : Type} : ∀ (l : List α) (k : Nat) (x : α), k < l.length →
    (l.set k x).take (k + 1) = l.take k ++ [x] := by
  intro l
  induction l with
  | nil => intro k x h; simp at h
  | cons a l ih =>
    intro k x h
    cases k with
    | zero => simp
    | succ k =>
      simp only [List.length_cons, Nat.add_lt_add_iff_right] at h
      simp [ih k x h]

theorem advance_inv (s : State) (buf : List Char) (hinv : Inv s) (hlt : s.size < MAX_SIZE) :
    Inv (advance s buf) := by
  obtain ⟨hlen, h0, _⟩ := hinv
  refine ⟨?_, ?_, ?_⟩
  · simp [advance, hlen]
  · simp only [advance]; omega
  · simp only [advance]; omega

theorem advance_buffer (s : State) (buf : List Char) (hinv : Inv s) (hlt : s.size < MAX_SIZE) :
    buffer (advance s buf) = buffer s ++ [some (atoi buf)] := by
  obtain ⟨hlen, h0, _⟩ := hinv
  have hk : s.size.toNat < s.numbers.length := by
    have : ((s.size.toNat : Nat) : Int) = s.size := Int.toNat_of_nonneg h0
    omega
  have e : (s.size + 1).toNat = s.size.toNat + 1 := by omega
  unfold buffer
  simp only [advance, e]
  exact take_succ_set _ _ _ hk

theorem whileLoop_done (d : Nat) (s : State) (h : ¬ s.size < MAX_SIZE) :
    whileLoop (d + 1) s = .ok s := by
  simp [whileLoop, h]

theorem whileLoop_next (d : Nat) (s : State) (buf : List Char) (hinv : Inv s)
    (hlt : s.size < MAX_SIZE) (h : current s = some buf) (hq : isQuit buf = false) :
    whileLoop (d + 1) s = whileLoop d (advance s buf) := by
  simp [whileLoop, hlt, loopBody_next s buf hinv hlt h hq]

theorem whileLoop_quit (d : Nat) (s : State) (buf : List Char)
    (hlt : s.size < MAX_SIZE) (h : current s = some buf) (hq : isQuit buf = true) :
    whileLoop (d + 1) s = .ok (leave s buf) := by
  simp [whileLoop, hlt, loopBody_quit s buf h hq]

theorem whileLoop_uninit (d : Nat) (s : State)
    (hlt : s.size < MAX_SIZE) (h : current s = none) :
    whileLoop (d + 1) s = .error .uninit := by
  simp [whileLoop, hlt, loopBody_uninit s h]

/-- Reading a run `pre` of accepted tokens that fits the free cells: each is appended. -/
theorem whileLoop_read : ∀ (pre rest : List Token) (s : State) (d : Nat), Inv s →
    s.stdin = pre ++ rest → (∀ t ∈ pre, isQuit t.chars = false) →
    s.size + pre.length ≤ MAX_SIZE →
    ∃ s1, whileLoop (d + pre.length) s = whileLoop d s1 ∧ Inv s1 ∧
      s1.size = s.size + pre.length ∧
      buffer s1 = buffer s ++ pre.map (fun t => some (atoi t.chars)) ∧
      s1.stdin = rest ∧
      s1.stdout = s.stdout ++ promptsFrom s.size pre.length ∧
      s1.input = lastInput s.input pre := by
  intro pre
  induction pre with
  | nil =>
    intro rest s d hinv hin _ _
    exact ⟨s, rfl, hinv, by simp, by simp, by simpa using hin, by simp [promptsFrom], rfl⟩
  | cons t pre ih =>
    intro rest s d hinv hin hq hsz
    have hlt : s.size < MAX_SIZE := by
      simp only [List.length_cons] at hsz
      push_cast at hsz
      omega
    have hcur : current s = some t.chars := by
      unfold current
      rw [hin]
      rfl
    have hqt : isQuit t.chars = false := hq t (List.mem_cons_self _ _)
    have hinv1 := advance_inv s t.chars hinv hlt
    have hin1 : (advance s t.chars).stdin = pre ++ rest := by
      simp [advance, hin]
    have hsz1 : (advance s t.chars).size + pre.length ≤ MAX_SIZE := by
      simp only [List.length_cons, advance] at hsz ⊢
      push_cast at hsz
      omega
    obtain ⟨s1, hrun, hi, hsize, hbuf, hstd, hout, hinp⟩ :=
      ih rest (advance s t.chars) d hinv1 hin1
        (fun u hu => hq u (List.mem_cons_of_mem _ hu)) hsz1
    refine ⟨s1, ?_, hi, ?_, ?_, hstd, ?_, ?_⟩
    · have e : d + (t :: pre).length = (d + pre.length) + 1 := by simp; omega
      rw [e, whileLoop_next _ s t.chars hinv hlt hcur hqt, hrun]
    · rw [hsize]
      simp only [advance, List.length_cons]
      push_cast
      omega
    · rw [hbuf, advance_buffer s t.chars hinv hlt]
      simp
    · rw [hout]
      simp [advance, promptsFrom]
    · rw [hinp]
      simp only [advance]
      rfl

/-- At end of input with an accepted string left in `input`, the loop appends its coercion
until the array is full. -/
theorem whileLoop_eof : ∀ (n : Nat) (s : State) (buf : List Char), Inv s →
    s.stdin = [] → s.input = some buf → isQuit buf = false →
    s.size + n = MAX_SIZE →
    ∃ s1, whileLoop (n + 1) s = .ok s1 ∧ Inv s1 ∧ s1.size = MAX_SIZE ∧
      buffer s1 = buffer s ++ List.replicate n (some (atoi buf)) ∧
      s1.stdin = [] ∧
      s1.stdout = s.stdout ++ promptsFrom s.size n := by
  intro n
  induction n with
  | zero =>
    intro s buf hinv hin _ _ hsz
    have hge : ¬ s.size < MAX_SIZE := by
      simp only [Nat.cast_zero, add_zero] at hsz
      omega
    exact ⟨s, whileLoop_done 0 s hge, hinv, by simpa using hsz, by simp, hin,
      by simp [promptsFrom]⟩
  | succ n ih =>
    intro s buf hinv hin hbuf hq hsz
    have hlt : s.size < MAX_SIZE := by
      push_cast at hsz
      omega
    have hcur : current s = some buf := by
      unfold current
      rw [hin]
      exact hbuf
    have hinv1 := advance_inv s buf hinv hlt
    have hsz1 : (advance s buf).size + n = MAX_SIZE := by
      simp only [advance]
      push_cast at hsz
      omega
    obtain ⟨s1, hrun, hi, hsize, hb, hstd, hout⟩ :=
      ih (advance s buf) buf hinv1 (by simp [advance, hin]) rfl hq hsz1
    refine ⟨s1, ?_, hi, hsize, ?_, hstd, ?_⟩
    · rw [whileLoop_next _ s buf hinv hlt hcur hq, hrun]
    · rw [hb, advance_buffer s buf hinv hlt]
      simp [List.replicate_succ]
    · rw [hout]
      simp [advance, promptsFrom]

theorem start_inv (tokens : List Token) : Inv (printf banner (start tokens)) := by
  unfold Inv printf start MAX_SIZE
  simp

theorem start_buffer (tokens : List Token) : buffer (printf banner (start tokens)) = [] := by
  unfold buffer printf start
  simp

theorem loopBody_cases (s : State) (hinv : Inv s) (hlt : s.size < MAX_SIZE) :
    (current s = none ∧ loopBody s = .fault .uninit) ∨
    (∃ buf, current s = some buf ∧ isQuit buf = true ∧ loopBody s = .quit (leave s buf)) ∨
    (∃ buf, current s = some buf ∧ isQuit buf = false ∧
      loopBody s = .next (advance s buf)) := by
  cases hc : current s with
  | none => exact Or.inl ⟨rfl, loopBody_uninit s hc⟩
  | some buf =>
    cases hq : isQuit buf with
    | true => exact Or.inr (Or.inl ⟨buf, rfl, hq, loopBody_quit s buf hc hq⟩)
    | false => exact Or.inr (Or.inr ⟨buf, rfl, hq, loopBody_next s buf hinv hlt hc hq⟩)

theorem atoi_isInt (buf : List Char) : isInt (atoi buf) := by
  unfold atoi
  split
  · decide
  · split_ifs <;> exact wrap32_isInt _

theorem advance_filled (s : State) (buf : List Char) (hinv : Inv s) (hlt : s.size < MAX_SIZE)
    (hf : Filled s) : Filled (advance s buf) := by
  obtain ⟨vs, hvs, hint⟩ := hf
  refine ⟨vs ++ [atoi buf], ?_, ?_⟩
  · rw [advance_buffer s buf hinv hlt, hvs]
    simp
  · intro v hv
    rcases List.mem_append.1 hv with h | h
    · exact hint v h
    · simp only [List.mem_singleton] at h
      rw [h]
      exact atoi_isInt buf

theorem leave_inv (s : State) (buf : List Char) (hinv : Inv s) : Inv (leave s buf) := hinv

theorem leave_buffer (s : State) (buf : List Char) : buffer (leave s buf) = buffer s := rfl

theorem leave_filled (s : State) (buf : List Char) (hf : Filled s) : Filled (leave s buf) := hf

theorem start_filled (tokens : List Token) : Filled (printf banner (start tokens)) :=
  ⟨[], by rw [start_buffer]; rfl, by simp⟩

theorem reachable_inv (tokens : List Token) (s : State) (h : Reachable tokens s) :
    Inv s ∧ Filled s := by
  induction h with
  | entry => exact ⟨start_inv tokens, start_filled tokens⟩
  | next s s1 _ hlt hb ih =>
    rcases loopBody_cases s ih.1 hlt with ⟨_, h⟩ | ⟨buf, _, _, h⟩ | ⟨buf, _, _, h⟩
    · rw [h] at hb; cases hb
    · rw [h] at hb; cases hb
    · rw [h] at hb
      cases hb
      exact ⟨advance_inv s buf ih.1 hlt, advance_filled s buf ih.1 hlt ih.2⟩
  | quit s s1 _ hlt hb ih =>
    rcases loopBody_cases s ih.1 hlt with ⟨_, h⟩ | ⟨buf, _, _, h⟩ | ⟨buf, _, _, h⟩
    · rw [h] at hb; cases hb
    · rw [h] at hb
      cases hb
      exact ⟨leave_inv s buf ih.1, leave_filled s buf ih.2⟩
    · rw [h] at hb; cases hb

theorem whileLoop_reachable (tokens : List Token) : ∀ (d : Nat) (s s1 : State),
    Reachable tokens s → whileLoop d s = .ok s1 → Reachable tokens s1 := by
  intro d
  induction d with
  | zero => intro s s1 _ h; simp [whileLoop] at h
  | succ d ih =>
    intro s s1 hr h
    by_cases hlt : s.size < MAX_SIZE
    · simp only [whileLoop, hlt, if_true] at h
      cases hb : loopBody s with
      | next s2 =>
        rw [hb] at h
        exact ih s2 s1 (Reachable.next s s2 hr hlt hb) h
      | quit s2 =>
        rw [hb] at h
        simp only [Except.ok.injEq] at h
        rw [← h]
        exact Reachable.quit s s2 hr hlt hb
      | fault f => rw [hb] at h; simp at h
    · rw [whileLoop_done d s hlt] at h
      simp only [Except.ok.injEq] at h
      rw [← h]
      exact hr

theorem whileLoop_mono_succ : ∀ (d : Nat) (s s1 : State),
    whileLoop d s = .ok s1 → whileLoop (d + 1) s = .ok s1 := by
  intro d
  induction d with
  | zero => intro s s1 h; simp [whileLoop] at h
  | succ d ih =>
    intro s s1 h
    by_cases hlt : s.size < MAX_SIZE
    · rw [whileLoop] at h ⊢
      simp only [hlt, if_true] at h ⊢
      cases hb : loopBody s with
      | next s2 =>
        rw [hb] at h
        exact ih s2 s1 h
      | quit s2 => rw [hb] at h; exact h
      | fault f => rw [hb] at h; simp at h
    · rw [whileLoop_done d s hlt] at h
      rw [whileLoop_done (d + 1) s hlt]
      exact h

theorem whileLoop_mono {d e : Nat} {s s1 : State} (hde : d ≤ e)
    (h : whileLoop d s = .ok s1) : whileLoop e s = .ok s1 := by
  induction hde with
  | refl => exact h
  | step _ ih => exact whileLoop_mono_succ _ _ _ ih

/-! ## Whole runs of the collection loop -/

theorem promptsFrom_append : ∀ (m n : Nat) (k : Int),
    promptsFrom k (m + n) = promptsFrom k m ++ promptsFrom (k + m) n := by
  intro m
  induction m with
  | zero => intro n k; simp [promptsFrom]
  | succ m ih =>
    intro n k
    have e : m + 1 + n = (m + n) + 1 := by omega
    rw [e, promptsFrom, promptsFrom, ih n (k + 1)]
    have e2 : k + 1 + (m : Int) = k + ((m + 1 : Nat) : Int) := by push_cast; ring
    rw [e2]
    rfl

theorem promptsFrom_length : ∀ (n : Nat) (k : Int), (promptsFrom k n).length = n := by
  intro n
  induction n with
  | zero => intro k; rfl
  | succ n ih => intro k; simp [promptsFrom, ih]

theorem lastInput_getLast : ∀ (pre : List Token) (old : Option (List Char)) (h : pre ≠ []),
    lastInput old pre = some (pre.getLast h).chars := by
  intro pre
  induction pre with
  | nil => intro old h; exact absurd rfl h
  | cons t pre ih =>
    intro old h
    cases pre with
    | nil => rfl
    | cons u pre =>
      rw [lastInput, ih (some t.chars) (List.cons_ne_nil u pre)]
      simp

theorem takeWhile_split (pre : List Token) (q : Token) (rest : List Token)
    (hpre : ∀ t ∈ pre, isQuit t.chars = false) (hq : isQuit q.chars = true) :
    (pre ++ q :: rest).takeWhile accepted = pre := by
  induction pre with
  | nil => simp [accepted, hq]
  | cons t pre ih =>
    have ht : accepted t = true := by simp [accepted, hpre t (List.mem_cons_self _ _)]
    simp only [List.cons_append, List.takeWhile_cons, ht, if_true]
    rw [ih (fun u hu => hpre u (List.mem_cons_of_mem _ hu))]

/-- A run that reads `pre`, all accepted, and then meets the sentinel `q`. -/
theorem collect_quit (pre : List Token) (q : Token) (rest : List Token)
    (hlen : pre.length < 100) (hpre : ∀ t ∈ pre, isQuit t.chars = false)
    (hq : isQuit q.chars = true) :
    ∃ s, whileLoop 101 (printf banner (start (pre ++ q :: rest))) = .ok s ∧
      s.size = pre.length ∧ buffer s = pre.map cell ∧ s.stdin = rest ∧
      s.stdout = banner :: promptsFrom 0 (pre.length + 1) := by
  obtain ⟨s1, hrun, hinv, hsize, hbuf, hstd, hout, _⟩ :=
    whileLoop_read pre (q :: rest) (printf banner (start (pre ++ q :: rest)))
      (100 - pre.length + 1) (start_inv _) rfl hpre
      (by simp only [printf, start, MAX_SIZE]; omega)
  have e : 100 - pre.length + 1 + pre.length = 101 := by omega
  rw [e] at hrun
  have hsize0 : s1.size = pre.length := by
    rw [hsize]
    simp [printf, start]
  have hlt : s1.size < MAX_SIZE := by
    rw [hsize0]
    unfold MAX_SIZE
    omega
  have hcur : current s1 = some q.chars := by
    unfold current
    rw [hstd]
  refine ⟨leave s1 q.chars, ?_, hsize0, ?_, ?_, ?_⟩
  · rw [hrun, whileLoop_quit _ s1 q.chars hlt hcur hq]
  · rw [leave_buffer, hbuf, start_buffer]
    rfl
  · simp [leave, hstd]
  · simp only [leave, hout, hsize0]
    rw [promptsFrom_append pre.length 1 0]
    simp [printf, start, promptsFrom]

/-- A run whose first hundred tokens are all accepted. -/
theorem collect_full (tokens : List Token) (hlen : 100 ≤ tokens.length)
    (hacc : ∀ t ∈ tokens.take 100, isQuit t.chars = false) :
    ∃ s, whileLoop 101 (printf banner (start tokens)) = .ok s ∧
      s.size = 100 ∧ buffer s = (tokens.take 100).map cell ∧ s.stdin = tokens.drop 100 ∧
      s.stdout = banner :: promptsFrom 0 100 := by
  have hl : (tokens.take 100).length = 100 := by simp; omega
  obtain ⟨s1, hrun, hinv, hsize, hbuf, hstd, hout, _⟩ :=
    whileLoop_read (tokens.take 100) (tokens.drop 100) (printf banner (start tokens))
      1 (start_inv _) (by simp [printf, start]) hacc
      (by rw [hl]; simp [printf, start, MAX_SIZE])
  rw [hl] at hrun hsize hout
  have hsize0 : s1.size = 100 := by
    rw [hsize]
    simp [printf, start]
  refine ⟨s1, ?_, hsize0, ?_, hstd, ?_⟩
  · rw [hrun, whileLoop_done 0 s1 (by rw [hsize0]; decide)]
  · rw [hbuf, start_buffer]
    rfl
  · rw [hout]
    simp [printf, start]

/-- A run on a non-empty input that ends before a sentinel and before the array is full:
at end of input the last token stays in `input` and its coercion fills the array. -/
theorem collect_eof (tokens : List Token) (hne : tokens ≠ []) (hlen : tokens.length < 100)
    (hacc : ∀ t ∈ tokens, isQuit t.chars = false) :
    ∃ s, whileLoop 101 (printf banner (start tokens)) = .ok s ∧
      s.size = 100 ∧
      buffer s = tokens.map cell ++
        List.replicate (100 - tokens.length) (cell (tokens.getLast hne)) ∧
      s.stdin = [] ∧ s.stdout = banner :: promptsFrom 0 100 := by
  obtain ⟨s1, hrun, hinv, hsize, hbuf, hstd, hout, hinp⟩ :=
    whileLoop_read tokens [] (printf banner (start tokens))
      (100 - tokens.length + 1) (start_inv _) (by simp [printf, start]) hacc
      (by simp only [printf, start, MAX_SIZE]; omega)
  have e : 100 - tokens.length + 1 + tokens.length = 101 := by omega
  rw [e] at hrun
  have hsize0 : s1.size = tokens.length := by
    rw [hsize]
    simp [printf, start]
  rw [lastInput_getLast tokens _ hne] at hinp
  obtain ⟨s2, hrun2, _, hsize2, hbuf2, hstd2, hout2⟩ :=
    whileLoop_eof (100 - tokens.length) s1 (tokens.getLast hne).chars hinv hstd hinp
      (hacc _ (List.getLast_mem hne))
      (by rw [hsize0]; unfold MAX_SIZE; omega)
  have e2 : 101 = (100 - tokens.length + 1) + tokens.length := by omega
  refine ⟨s2, ?_, hsize2, ?_, hstd2, ?_⟩
  · rw [hrun]
    exact whileLoop_mono (by omega) hrun2
  · rw [hbuf2, hbuf, start_buffer]
    rfl
  · rw [hout2, hout, hsize0]
    have e3 : (100 : Nat) = tokens.length + (100 - tokens.length) := by omega
    rw [e3, promptsFrom_append]
    simp [printf, start]

/-! ## Facts about the evaluation loop -/

theorem load_of_drop (a tail : List (Option Int)) (i v : Int) (rem : List (Option Int))
    (h0 : 0 ≤ i) (h : a.drop i.toNat = some v :: rem ++ tail) : load a i = .ok v := by
  have hget : a[i.toNat]? = some (some v) := by
    have := List.getElem?_drop a i.toNat 0
    rw [h] at this
    simpa using this.symm
  have hlen : i.toNat < a.length := by
    by_contra hc
    rw [List.getElem?_eq_none (by omega)] at hget
    cases hget
  unfold load
  rw [if_pos ⟨h0, by omega⟩]
  simp [hget]

theorem forLoop_run (fd : Nat) (f : Int → Int) : ∀ (rem : List Int) (tail : List (Option Int))
    (i : Int) (s : State) (d : Nat), 0 ≤ i → i + rem.length = s.size → s.size ≤ MAX_SIZE →
    s.numbers.drop i.toNat = rem.map some ++ tail →
    (∀ v ∈ rem, factorial fd v = some (f v)) → rem.length < d →
    forLoop fd d i s =
      .ok { s with stdout := s.stdout ++ rem.map (fun v => resultLine v (f v)) } := by
  intro rem
  induction rem with
  | nil =>
    intro tail i s d _ hsz _ _ _ hd
    obtain ⟨e, rfl⟩ : ∃ e, d = e + 1 := ⟨d - 1, by simp at hd; omega⟩
    have hge : ¬ i < s.size := by simp at hsz; omega
    simp [forLoop, hge]
  | cons v rem ih =>
    intro tail i s d h0 hsz hmax hdrop hf hd
    obtain ⟨e, rfl⟩ : ∃ e, d = e + 1 := ⟨d - 1, by omega⟩
    have hlt : i < s.size := by
      simp only [List.length_cons] at hsz
      push_cast at hsz
      omega
    have hload : load s.numbers i = .ok v := load_of_drop s.numbers tail i v (rem.map some) h0 hdrop
    have hw : wrap32 (i + 1) = i + 1 := by
      apply wrap32_of_isInt
      unfold isInt INT_MIN INT_MAX
      unfold MAX_SIZE at hmax
      omega
    have hdrop1 : (printf (resultLine v (f v)) s).numbers.drop (i + 1).toNat =
        rem.map some ++ tail := by
      have e1 : (i + 1).toNat = i.toNat + 1 := by omega
      have e2 := List.tail_drop s.numbers i.toNat
      rw [hdrop] at e2
      rw [e1]
      simp only [printf]
      rw [← e2]
      rfl
    have hrec := ih tail (i + 1) (printf (resultLine v (f v)) s) e (by omega)
      (by simp only [List.length_cons, printf] at hsz ⊢; push_cast at hsz; omega)
      hmax hdrop1 (fun u hu => hf u (List.mem_cons_of_mem _ hu))
      (by simp only [List.length_cons] at hd; omega)
    rw [forLoop, if_pos hlt, hload]
    simp only [hf v (List.mem_cons_self _ _), hw, hrec]
    simp [printf]

/-- The text of the result line for a non-negative entry `v`. -/
theorem resultLine_eq (v r : Int) :
    resultLine v r = toString v ++ "! = " ++ toString r ++ "\n" := rfl

/-! ## Properties of `factorial` -/

/-- C1: for every integer `n` with `0 ≤ n ≤ 12` the call `factorial(n)` returns the
mathematical value `n!`, which lies within `int` (no wrap occurs); in particular
`factorial(0) = 1`, `factorial(1) = 1`, `factorial(5) = 120`, `factorial(10) = 3628800`. -/
theorem factorial_exact_upto_12 (n : Int) (h0 : 0 ≤ n) (h12 : n ≤ 12) :
    (factorial (n.toNat + 1) n = some ((Nat.factorial n.toNat : Nat) : Int) ∧
      ((Nat.factorial n.toNat : Nat) : Int) ≤ INT_MAX) ∧
    factorial 1 0 = some 1 ∧ factorial 2 1 = some 1 ∧
    factorial 6 5 = some 120 ∧ factorial 11 10 = some 3628800 := by
  refine ⟨?_, by decide, by decide, by decide, by decide⟩
  obtain ⟨k, rfl⟩ := Int.eq_ofNat_of_zero_le h0
  have hk : k ≤ 12 := by omega
  have hle : Nat.factorial k ≤ Nat.factorial 12 := Nat.factorial_le hk
  have h12f : Nat.factorial 12 = 479001600 := by decide
  rw [h12f] at hle
  have hint : isInt ((Nat.factorial k : Nat) : Int) := by
    unfold isInt INT_MIN INT_MAX
    omega
  have hr := factorial_nonneg_eq k (by unfold INT_MAX; omega)
  rw [wrap32_of_isInt hint] at hr
  refine ⟨?_, hint.2⟩
  simpa using hr

theorem factorial_exact_upto_12_witness :
    (factorial 8 7 = some 5040 ∧ (5040 : Int) ≤ INT_MAX) ∧
    factorial 1 0 = some 1 ∧ factorial 2 1 = some 1 ∧
    factorial 6 5 = some 120 ∧ factorial 11 10 = some 3628800 :=
  factorial_exact_upto_12 7 (by decide) (by decide)

/-- C6: for every `int` `n ≥ 0` the call `factorial(n)` returns, without any overflow
check, the signed 32-bit two's-complement representative of `n!` modulo `2^32`: the value
lies in the range of `int` and differs from `n!` by a multiple of `2^32`; for example
`factorial(13) = 1932053504` whereas `13! = 6227020800`. -/
theorem factorial_wraps (n : Int) (h0 : 0 ≤ n) (hmax : n ≤ INT_MAX) :
    (∃ v, factorial (n.toNat + 1) n = some v ∧ INT_MIN ≤ v ∧ v ≤ INT_MAX ∧
      (4294967296 : Int) ∣ ((Nat.factorial n.toNat : Nat) : Int) - v) ∧
    factorial 14 13 = some 1932053504 ∧ Nat.factorial 13 = 6227020800 := by
  refine ⟨?_, by decide, by decide⟩
  obtain ⟨k, rfl⟩ := Int.eq_ofNat_of_zero_le h0
  have hr := factorial_nonneg_eq k hmax
  have hi := wrap32_isInt ((Nat.factorial k : Nat) : Int)
  refine ⟨wrap32 ((Nat.factorial k : Nat) : Int), by simpa using hr, hi.1, hi.2, ?_⟩
  simp only [Int.toNat_ofNat]
  have hm := wrap32_emod ((Nat.factorial k : Nat) : Int)
  exact Int.dvd_of_emod_eq_zero (by rw [Int.sub_emod, hm]; simp)

theorem factorial_wraps_witness :
    (∃ v, factorial 21 20 = some v ∧ INT_MIN ≤ v ∧ v ≤ INT_MAX ∧
      (4294967296 : Int) ∣ ((Nat.factorial 20 : Nat) : Int) - v) ∧
    factorial 14 13 = some 1932053504 ∧ Nat.factorial 13 = 6227020800 :=
  factorial_wraps 20 (by decide) (by decide)

theorem callArgs_neg : ∀ (d : Nat) (n : Int), n < 0 → (d : Int) ≤ n - INT_MIN + 1 →
    callArgs d n = (List.range d).map (fun (k : Nat) => n - (k : Int)) := by
  intro d
  induction d with
  | zero => intro n _ _; rfl
  | succ d ih =>
    intro n hneg hd
    have h0 : ¬ (n = 0 ∨ n = 1) := by omega
    rw [callArgs, if_neg h0, List.range_succ_eq_map]
    cases d with
    | zero => simp [callArgs]
    | succ e =>
      have hw : wrap32 (n - 1) = n - 1 := by
        apply wrap32_of_isInt
        unfold isInt INT_MAX
        unfold INT_MIN at hd ⊢
        push_cast at hd
        omega
      rw [hw, ih (n - 1) (by omega) (by push_cast at hd ⊢; omega)]
      simp only [List.map_cons, List.map_map, Nat.cast_zero, sub_zero, List.cons.injEq, true_and]
      apply List.map_congr_left
      intro k _
      simp only [Function.comp_apply, Nat.succ_eq_add_one]
      push_cast
      ring

/-- C7, counterexample: under the program's 32-bit `int` arithmetic the call
`factorial(INT_MIN)` returns (the value `0`) once 2^31 nested activations are available:
the argument of its recursive call is `INT_MIN - 1` wrapped to `INT_MAX`, from where the
chain of arguments descends to the base case `1`. -/
theorem factorial_negative_counterexample :
    (-2147483648 : Int) < 0 ∧ factorial 2147483648 (-2147483648) = some 0 :=
  ⟨by decide, factorial_INT_MIN⟩

/-- C7, amended: for every `int` `n < 0` the arguments `n, n-1, ..., INT_MIN` of the first
`n + 2^31 + 1` nested calls are all negative (none is `0` or `1`) and `factorial(n)` does
not return within fewer than `n + 2^32` nested activations; with 32-bit wrapping the
argument after `INT_MIN` is `INT_MAX`, and with `n + 2^32` activations the call
returns `0`. -/
theorem factorial_negative_deep (n : Int) (hmin : INT_MIN ≤ n) (hneg : n < 0) :
    (∀ d : Nat, (d : Int) ≤ n - INT_MIN + 1 →
      callArgs d n = (List.range d).map (fun (k : Nat) => n - (k : Int)) ∧
      ∀ a ∈ callArgs d n, a < 0) ∧
    (∀ d : Nat, (d : Int) < n + 4294967296 → factorial d n = none) ∧
    wrap32 (INT_MIN - 1) = INT_MAX ∧
    factorial (n + 4294967296).toNat n = some 0 := by
  refine ⟨?_, ?_, by decide, ?_⟩
  · intro d hd
    have hc := callArgs_neg d n hneg hd
    refine ⟨hc, ?_⟩
    intro a ha
    rw [hc] at ha
    simp only [List.mem_map, List.mem_range] at ha
    obtain ⟨k, _, rfl⟩ := ha
    omega
  · intro d hd
    apply factorial_none_of_lt_depth d n
    · unfold isInt INT_MAX
      exact ⟨hmin, by omega⟩
    · unfold depth
      rw [if_neg (by omega), if_neg (by omega)]
      omega
  · unfold INT_MIN at hmin
    have hj : 0 ≤ n + 2147483648 := by omega
    obtain ⟨j, hj'⟩ := Int.eq_ofNat_of_zero_le hj
    have h := factorial_neg_eq j (by omega)
    have e1 : INT_MIN + (j : Int) = n := by unfold INT_MIN; omega
    have e2 : (n + 4294967296).toNat = 2147483648 + j := by omega
    rw [e1] at h
    rw [e2]
    exact h

theorem factorial_negative_deep_witness :
    (∀ d : Nat, (d : Int) ≤ (-1 : Int) - INT_MIN + 1 →
      callArgs d (-1) = (List.range d).map (fun (k : Nat) => (-1 : Int) - (k : Int)) ∧
      ∀ a ∈ callArgs d (-1), a < 0) ∧
    (∀ d : Nat, (d : Int) < (-1 : Int) + 4294967296 → factorial d (-1) = none) ∧
    wrap32 (INT_MIN - 1) = INT_MAX ∧
    factorial ((-1 : Int) + 4294967296).toNat (-1) = some 0 :=
  factorial_negative_deep (-1) (by decide) (by decide)

/-- C10: for every `int` `n > 1`, `factorial(n) = n * factorial(n - 1)` with the program's
`int` multiplication: at every depth the call on `n` returns the wrapped product of `n`
and what the call on `n - 1` returns, and both calls do return; for `n = 0` and `n = 1`
the call returns `1` with no nested call. -/
theorem factorial_recursive_case (n : Int) (h1 : 1 < n) (hmax : n ≤ INT_MAX) :
    (∀ d : Nat, factorial (d + 1) n =
      (factorial d (n - 1)).map (fun r => wrap32 (n * r))) ∧
    (∃ r, factorial (n - 1).toNat (n - 1) = some r ∧
      factorial n.toNat n = some (wrap32 (n * r))) ∧
    factorial 1 0 = some 1 ∧ factorial 1 1 = some 1 := by
  have hw : wrap32 (n - 1) = n - 1 := wrap32_pred (by omega) hmax
  have hrec : ∀ d : Nat, factorial (d + 1) n =
      (factorial d (n - 1)).map (fun r => wrap32 (n * r)) := by
    intro d
    rw [factorial_succ_rec d n (by omega) (by omega), hw]
    cases factorial d (n - 1) <;> rfl
  refine ⟨hrec, ?_, by decide, by decide⟩
  have hi : isInt (n - 1) := by
    unfold isInt INT_MIN
    unfold INT_MAX at hmax ⊢
    omega
  have hd : depth (n - 1) = (n - 1).toNat := by
    unfold depth
    rw [if_neg (by omega), if_pos (by omega)]
  obtain ⟨r, hr⟩ := factorial_some_at_depth (n - 1).toNat (n - 1) hi hd
  refine ⟨r, hr, ?_⟩
  have e : n.toNat = (n - 1).toNat + 1 := by omega
  rw [e, hrec, hr]
  rfl

theorem factorial_recursive_case_witness :
    (∀ d : Nat, factorial (d + 1) 5 =
      (factorial d (5 - 1)).map (fun r => wrap32 (5 * r))) ∧
    (∃ r, factorial ((5 : Int) - 1).toNat (5 - 1) = some r ∧
      factorial (5 : Int).toNat 5 = some (wrap32 (5 * r))) ∧
    factorial 1 0 = some 1 ∧ factorial 1 1 = some 1 :=
  factorial_recursive_case 5 (by decide) (by decide)

/-! ## Properties of `main` -/

/-- C2, counterexample: on the input `3` followed by end of input the loop does not stop
after one element: the failed reads leave `3` in `input` and the Numbers Buffer ends with
one hundred elements, whereas the formula of the claim yields the single element `3`. -/
theorem collect_formula_counterexample :
    ∃ s, whileLoop 101 (printf banner (start input3)) = .ok s ∧
      buffer s = List.replicate 100 (some 3) ∧
      ((input3.takeWhile accepted).take 100).map cell = [some 3] ∧
      buffer s ≠ ((input3.takeWhile accepted).take 100).map cell := by
  obtain ⟨s, hrun, _, hbuf, _, _⟩ :=
    collect_eof input3 (List.cons_ne_nil _ _) (by decide) (by decide)
  have hb : buffer s = List.replicate 100 (some 3) := by
    rw [hbuf]
    decide
  refine ⟨s, hrun, hb, by decide, ?_⟩
  rw [hb]
  decide

/-- C2, amended: for every input token sequence that contains a sentinel or whose accepted
prefix has at least 100 tokens, the collection loop ends with the Numbers Buffer equal to
`map coerce (take 100 (takeWhile accepted tokens))`; and when the first sentinel is preceded
by `k < 100` tokens the loop stops at it: the buffer holds exactly the coercions of those
`k` tokens in order, the sentinel is not appended and the tokens after it stay unread. -/
theorem collect_until_sentinel (tokens : List Token)
    (h : (∃ t ∈ tokens, isQuit t.chars = true) ∨
      100 ≤ (tokens.takeWhile accepted).length) :
    ∃ s, whileLoop 101 (printf banner (start tokens)) = .ok s ∧
      buffer s = ((tokens.takeWhile accepted).take 100).map cell ∧
      ∀ (pre : List Token) (q : Token) (rest : List Token), tokens = pre ++ q :: rest →
        (∀ t ∈ pre, isQuit t.chars = false) → isQuit q.chars = true → pre.length < 100 →
        s.size = pre.length ∧ buffer s = pre.map cell ∧ s.stdin = rest := by
  have hsplit := List.takeWhile_append_dropWhile accepted tokens
  by_cases hfull : 100 ≤ (tokens.takeWhile accepted).length
  · have hlen : 100 ≤ tokens.length := by
      have := congrArg List.length hsplit
      simp only [List.length_append] at this
      omega
    have htake : tokens.take 100 = (tokens.takeWhile accepted).take 100 := by
      conv_lhs => rw [← hsplit]
      exact List.take_append_of_le_length hfull
    have hacc : ∀ t ∈ tokens.take 100, isQuit t.chars = false := by
      intro t ht
      rw [htake] at ht
      have := List.mem_takeWhile_imp (List.mem_of_mem_take ht)
      simpa [accepted] using this
    obtain ⟨s, hrun, _, hbuf, _, _⟩ := collect_full tokens hlen hacc
    refine ⟨s, hrun, by rw [hbuf, htake], ?_⟩
    intro pre q rest htok hpre hq hk
    have := takeWhile_split pre q rest hpre hq
    rw [← htok] at this
    rw [this] at hfull
    omega
  · have hex : ∃ t ∈ tokens, isQuit t.chars = true := by
      rcases h with h | h
      · exact h
      · exact absurd h hfull
    have hdrop : tokens.dropWhile accepted ≠ [] := by
      intro hnil
      obtain ⟨t, ht, hq⟩ := hex
      have := (List.dropWhile_eq_nil_iff).1 hnil t ht
      simp [accepted, hq] at this
    obtain ⟨q, rest, hqr⟩ : ∃ q rest, tokens.dropWhile accepted = q :: rest := by
      cases hd : tokens.dropWhile accepted with
      | nil => exact absurd hd hdrop
      | cons q rest => exact ⟨q, rest, rfl⟩
    have hq : isQuit q.chars = true := by
      have := List.head?_dropWhile_not accepted tokens
      rw [hqr] at this
      simpa [accepted] using this
    have hpre : ∀ t ∈ tokens.takeWhile accepted, isQuit t.chars = false := by
      intro t ht
      have := List.mem_takeWhile_imp ht
      simpa [accepted] using this
    have htok : tokens = tokens.takeWhile accepted ++ q :: rest := by
      rw [← hqr, hsplit]
    obtain ⟨s, hrun, hsize, hbuf, hstd, _⟩ :=
      collect_quit (tokens.takeWhile accepted) q rest (by omega) hpre hq
    rw [← htok] at hrun
    refine ⟨s, hrun, ?_, ?_⟩
    · rw [hbuf, List.take_of_length_le (by omega)]
    · intro pre1 q1 rest1 htok1 hpre1 hq1 _
      have hp := takeWhile_split pre1 q1 rest1 hpre1 hq1
      rw [← htok1] at hp
      have hrest : rest = rest1 := by
        have e := htok
        rw [hp] at e
        rw [htok1] at e
        have := List.append_cancel_left e
        simp only [List.cons.injEq] at this
        exact this.2.symm
      rw [← hp, ← hrest]
      exact ⟨hsize, hbuf, hstd⟩

theorem collect_until_sentinel_witness :
    ∃ s, whileLoop 101 (printf banner (start input35q)) = .ok s ∧
      buffer s = ((input35q.takeWhile accepted).take 100).map cell ∧
      ∀ (pre : List Token) (q : Token) (rest : List Token), input35q = pre ++ q :: rest →
        (∀ t ∈ pre, isQuit t.chars = false) → isQuit q.chars = true → pre.length < 100 →
        s.size = pre.length ∧ buffer s = pre.map cell ∧ s.stdin = rest :=
  collect_until_sentinel input35q (Or.inl ⟨tok ['q'] rfl, by simp [input35q], rfl⟩)

theorem main_of_loops (d : Nat) (tokens : List Token) (s s1 : State)
    (h1 : whileLoop d (printf banner (start tokens)) = .ok s)
    (h2 : forLoop d d 0 (printf header s) = .ok s1) :
    main d tokens = .ok (0, s1.stdout) := by
  unfold main
  rw [h1]
  simp only
  rw [h2]

theorem main_input35q : main 6 input35q = .ok (0, [banner, "Number 1: ", "Number 2: ",
    "Number 3: ", header, "3! = 6\n", "5! = 120\n"]) := by
  rfl

theorem main_inputQ : main 2 inputQ = .ok (0, [banner, "Number 1: ", header]) := by
  rfl

/-- C3: for every Numbers Buffer `[v_1, ..., v_m]` left by the collection loop whose
elements are all non-negative, `main` returns (given enough depth) having written after
the header exactly `m` lines, in buffer order, the `i`-th being `<v_i>! = <r_i>` in
decimal, where `r_i` is what `factorial(v_i)` returns; on `3 5 q` the lines are `3! = 6`
and `5! = 120`, and on `q` only the header follows the first prompt. -/
theorem evaluation_lines (tokens : List Token) (d0 : Nat) (s : State) (vs : List Int)
    (hrun : whileLoop d0 (printf banner (start tokens)) = .ok s)
    (hbuf : buffer s = vs.map some) (hnn : ∀ v ∈ vs, 0 ≤ v) :
    (∃ d1, ∀ d, d1 ≤ d → main d tokens = .ok (0, s.stdout ++ header ::
      vs.map (fun v => toString v ++ "! = " ++
        toString (wrap32 ((Nat.factorial v.toNat : Nat) : Int)) ++ "\n"))) ∧
    (∀ v ∈ vs, factorial (v.toNat + 1) v =
      some (wrap32 ((Nat.factorial v.toNat : Nat) : Int))) ∧
    main 6 input35q = .ok (0, [banner, "Number 1: ", "Number 2: ", "Number 3: ", header,
      "3! = 6\n", "5! = 120\n"]) ∧
    main 2 inputQ = .ok (0, [banner, "Number 1: ", header]) := by
  have hreach := whileLoop_reachable tokens d0 _ s Reachable.entry hrun
  obtain ⟨⟨hlen, h0, hmax⟩, ⟨ws, hws, hint⟩⟩ := reachable_inv tokens s hreach
  have hvw : ws = vs := by
    rw [hbuf] at hws
    exact (List.map_injective_iff.2 (Option.some_injective Int) hws).symm
  rw [hvw] at hint
  have hfact : ∀ v ∈ vs, factorial (v.toNat + 1) v =
      some (wrap32 ((Nat.factorial v.toNat : Nat) : Int)) := by
    intro v hv
    have h := factorial_nonneg_eq v.toNat (by rw [Int.toNat_of_nonneg (hnn v hv)]; exact (hint v hv).2)
    rw [Int.toNat_of_nonneg (hnn v hv)] at h
    exact h
  refine ⟨⟨d0 + 2147483648 + 101, ?_⟩, hfact, main_input35q, main_inputQ⟩
  intro d hd
  have hsz : s.size.toNat = vs.length := by
    have := congrArg List.length hbuf
    unfold buffer at this
    simp only [List.length_take, List.length_map] at this
    unfold MAX_SIZE at hlen hmax
    omega
  have hnum : s.numbers.drop (0 : Int).toNat = vs.map some ++ s.numbers.drop s.size.toNat := by
    have := List.take_append_drop s.size.toNat s.numbers
    unfold buffer at hbuf
    rw [hbuf] at this
    simpa using this.symm
  have hvl : vs.length ≤ 100 := by
    unfold MAX_SIZE at hmax
    omega
  have hfor := forLoop_run d (fun v => wrap32 ((Nat.factorial v.toNat : Nat) : Int)) vs
    (s.numbers.drop s.size.toNat) 0 (printf header s) d (le_refl 0)
    (by simp only [printf]; omega) hmax hnum
    (fun v hv => factorial_mono (by
      have := (hint v hv).2
      unfold INT_MAX at this
      omega) (hfact v hv))
    (by omega)
  have hwl : whileLoop d (printf banner (start tokens)) = .ok s :=
    whileLoop_mono (le_trans (le_trans (Nat.le_add_right _ _) (Nat.le_add_right _ _)) hd) hrun
  rw [main_of_loops d tokens s _ hwl hfor]
  show Except.ok (0, (s.stdout ++ [header]) ++ vs.map _) = _
  rw [List.append_assoc]
  have hl : ∀ v : Int, resultLine v (wrap32 ((Nat.factorial v.toNat : Nat) : Int)) =
      toString v ++ "! = " ++ toString (wrap32 ((Nat.factorial v.toNat : Nat) : Int)) ++ "\n" :=
    fun v => resultLine_eq _ _
  simp only [hl, List.singleton_append]

theorem evaluation_lines_witness :
    (∃ d1, ∀ d, d1 ≤ d → main d input35q = .ok (0,
      (banner :: promptsFrom 0 3) ++ header ::
      ([3, 5] : List Int).map (fun v => toString v ++ "! = " ++
        toString (wrap32 ((Nat.factorial v.toNat : Nat) : Int)) ++ "\n"))) ∧
    (∀ v ∈ ([3, 5] : List Int), factorial (v.toNat + 1) v =
      some (wrap32 ((Nat.factorial v.toNat : Nat) : Int))) ∧
    main 6 input35q = .ok (0, [banner, "Number 1: ", "Number 2: ", "Number 3: ", header,
      "3! = 6\n", "5! = 120\n"]) ∧
    main 2 inputQ = .ok (0, [banner, "Number 1: ", header]) := by
  obtain ⟨s, hrun, _, hbuf, _, hout⟩ :=
    collect_quit [tok ['3'] rfl, tok ['5'] rfl] (tok ['q'] rfl) [] (by decide) (by decide) rfl
  have h := evaluation_lines input35q 101 s [3, 5] hrun hbuf (by decide)
  rw [hout] at h
  exact h

theorem prompt_nat (m : Nat) (hm : m < 2147483647) :
    prompt (m : Int) = "Number " ++ toString (m + 1) ++ ": " := by
  have hw : wrap32 ((m : Int) + 1) = ((m + 1 : Nat) : Int) := by
    unfold wrap32
    push_cast
    omega
  unfold prompt
  rw [hw]
  rfl

theorem promptsFrom_nat : ∀ (n m : Nat), m + n ≤ 2147483647 →
    promptsFrom (m : Int) n =
      (List.range n).map (fun (j : Nat) => "Number " ++ toString (m + j + 1) ++ ": ") := by
  intro n
  induction n with
  | zero => intro m _; rfl
  | succ n ih =>
    intro m hm
    have e : (m : Int) + 1 = ((m + 1 : Nat) : Int) := by push_cast; rfl
    rw [promptsFrom, e, ih (m + 1) (by omega), prompt_nat m (by omega), List.range_succ_eq_map]
    simp only [List.map_cons, List.map_map, Nat.add_zero, List.cons.injEq, true_and]
    apply List.map_congr_left
    intro j _
    simp only [Function.comp_apply, Nat.succ_eq_add_one]
    have e2 : m + 1 + j + 1 = m + (j + 1) + 1 := by omega
    rw [e2]

theorem prompts_hundred : promptsFrom 0 100 =
    (List.range 100).map (fun (k : Nat) => "Number " ++ toString (k + 1) ++ ": ") := by
  have h := promptsFrom_nat 100 0 (by decide)
  simp only [Nat.zero_add] at h
  exact h

theorem no_prompt_101 : "Number 101: " ∉ banner :: promptsFrom 0 100 := by
  have hj : ∀ j : Fin 100, ("Number " ++ toString (j.val + 1) ++ ": ") ≠ "Number 101: " := by
    decide
  have hb : "Number 101: " ≠ banner := by decide
  rw [prompts_hundred]
  intro hmem
  rcases List.mem_cons.1 hmem with h | h
  · exact hb h
  · obtain ⟨j, hjr, hje⟩ := List.mem_map.1 h
    exact hj ⟨j, List.mem_range.1 hjr⟩ hje

/-- C4: for every input token sequence whose first 100 tokens are all accepted (also when
input ends earlier, provided there is a first token), collection stops after exactly 100
appended elements although no sentinel was read: `size` is 100, the Numbers Buffer has 100
elements, the prompts written are exactly `Number 1: ` to `Number 100: ` (no
`Number 101: `), and the tokens from the 101st on stay unread. -/
theorem collect_stops_at_capacity (tokens : List Token) (hne : tokens ≠ [])
    (hacc : ∀ t ∈ tokens.take 100, isQuit t.chars = false) :
    ∃ s, whileLoop 101 (printf banner (start tokens)) = .ok s ∧
      s.size = 100 ∧ (buffer s).length = 100 ∧
      s.stdout = banner ::
        (List.range 100).map (fun (k : Nat) => "Number " ++ toString (k + 1) ++ ": ") ∧
      "Number 101: " ∉ s.stdout ∧
      s.stdin = tokens.drop 100 := by
  have hprompts : banner :: promptsFrom 0 100 = banner ::
      (List.range 100).map (fun (k : Nat) => "Number " ++ toString (k + 1) ++ ": ") := by
    rw [prompts_hundred]
  have hno := no_prompt_101
  by_cases hlen : 100 ≤ tokens.length
  · obtain ⟨s, hrun, hsize, hbuf, hstd, hout⟩ := collect_full tokens hlen hacc
    refine ⟨s, hrun, hsize, ?_, ?_, ?_, hstd⟩
    · rw [hbuf]
      simp only [List.length_map, List.length_take]
      omega
    · rw [hout, hprompts]
    · rw [hout]
      exact hno
  · have hall : tokens.take 100 = tokens := List.take_of_length_le (by omega)
    rw [hall] at hacc
    obtain ⟨s, hrun, hsize, hbuf, hstd, hout⟩ := collect_eof tokens hne (by omega) hacc
    refine ⟨s, hrun, hsize, ?_, ?_, ?_, ?_⟩
    · rw [hbuf]
      simp only [List.length_append, List.length_map, List.length_replicate]
      omega
    · rw [hout, hprompts]
    · rw [hout]
      exact hno
    · rw [hstd, List.drop_of_length_le (by omega)]

theorem collect_stops_at_capacity_witness :
    input102.length = 102 ∧
    ∃ s, whileLoop 101 (printf banner (start input102)) = .ok s ∧
      s.size = 100 ∧ (buffer s).length = 100 ∧
      s.stdout = banner ::
        (List.range 100).map (fun (k : Nat) => "Number " ++ toString (k + 1) ++ ": ") ∧
      "Number 101: " ∉ s.stdout ∧
      s.stdin = [tok ['8'] rfl, tok ['q'] rfl] := by
  have hlen : input102.length = 102 := by simp [input102]
  have htake : input102.take 100 = List.replicate 100 (tok ['7'] rfl) :=
    List.take_left' (List.length_replicate _ _)
  have hdrop : input102.drop 100 = [tok ['8'] rfl, tok ['q'] rfl] :=
    List.drop_left' (List.length_replicate _ _)
  have hne : input102 ≠ [] := by
    intro h
    rw [h] at hlen
    cases hlen
  obtain ⟨s, h1, h2, h3, h4, h5, h6⟩ := collect_stops_at_capacity input102 hne (by
    intro t ht
    rw [htake] at ht
    rw [List.eq_of_mem_replicate ht]
    rfl)
  exact ⟨hlen, s, h1, h2, h3, h4, h5, h6.trans hdrop⟩

theorem load_of_filled (s : State) (hinv : Inv s) (hf : Filled s) (i : Int) (h0 : 0 ≤ i)
    (hi : i < s.size) : ∃ v, load s.numbers i = .ok v := by
  obtain ⟨hlen, _, hmax⟩ := hinv
  obtain ⟨vs, hvs, _⟩ := hf
  have hlt : i.toNat < s.size.toNat := by omega
  have hvl : vs.length = s.size.toNat := by
    have := congrArg List.length hvs
    unfold buffer at this
    simp only [List.length_take, List.length_map] at this
    unfold MAX_SIZE at hlen hmax
    omega
  have hget : s.numbers[i.toNat]? = (vs.map some)[i.toNat]? := by
    rw [← hvs]
    unfold buffer
    rw [List.getElem?_take_of_lt hlt]
  have hv : vs[i.toNat]? = some (vs[i.toNat]) := List.getElem?_eq_getElem (by omega)
  rw [List.getElem?_map, hv] at hget
  refine ⟨vs[i.toNat], ?_⟩
  unfold load
  rw [if_pos ⟨h0, by rw [hlen]; omega⟩]
  simp [hget]

/-- C5: in every state reachable in the collection loop of `main`, for every input token
sequence, `0 ≤ size ≤ 100`; the array keeps its 100 cells, the write `numbers[size]` of
the next pass is in bounds, every read `numbers[i]` with `0 ≤ i < size` uses an index
below 100 and finds a written cell, and a pass that appends leaves the elements already
in the buffer unchanged and in place, adding one element at the end. -/
theorem collect_invariant (tokens : List Token) (s : State) (h : Reachable tokens s) :
    (0 ≤ s.size ∧ s.size ≤ 100) ∧
    s.numbers.length = 100 ∧
    (s.size < MAX_SIZE → (∀ v, store s.numbers s.size v ≠ none) ∧
      loopBody s ≠ .fault .bounds) ∧
    (∀ i : Int, 0 ≤ i → i < s.size → i < 100 ∧ ∃ v, load s.numbers i = .ok v) ∧
    (∀ s1, s.size < MAX_SIZE → loopBody s = .next s1 →
      s1.size = s.size + 1 ∧ ∃ v, buffer s1 = buffer s ++ [some v]) := by
  obtain ⟨hinv, hf⟩ := reachable_inv tokens s h
  have hinv0 := hinv
  obtain ⟨hlen, h0, hmax⟩ := hinv
  unfold MAX_SIZE at hlen hmax
  refine ⟨⟨h0, hmax⟩, by omega, ?_, ?_, ?_⟩
  · intro hlt
    constructor
    · intro v
      unfold store
      rw [if_pos ⟨h0, by unfold MAX_SIZE at hlt; omega⟩]
      simp
    · rcases loopBody_cases s hinv0 hlt with ⟨_, hb⟩ | ⟨buf, _, _, hb⟩ | ⟨buf, _, _, hb⟩ <;>
        rw [hb] <;> simp
  · intro i hi0 hi
    exact ⟨by omega, load_of_filled s hinv0 hf i hi0 hi⟩
  · intro s1 hlt hb
    rcases loopBody_cases s hinv0 hlt with ⟨_, hb1⟩ | ⟨buf, _, _, hb1⟩ | ⟨buf, _, _, hb1⟩
    · rw [hb1] at hb; cases hb
    · rw [hb1] at hb; cases hb
    · rw [hb1] at hb
      cases hb
      exact ⟨rfl, atoi buf, advance_buffer s buf hinv0 hlt⟩

theorem collect_invariant_witness :
    (0 ≤ (advance (printf banner (start input3)) ['3']).size ∧
      (advance (printf banner (start input3)) ['3']).size ≤ 100) ∧
    (advance (printf banner (start input3)) ['3']).numbers.length = 100 ∧
    ((advance (printf banner (start input3)) ['3']).size < MAX_SIZE →
      (∀ v, store (advance (printf banner (start input3)) ['3']).numbers
        (advance (printf banner (start input3)) ['3']).size v ≠ none) ∧
      loopBody (advance (printf banner (start input3)) ['3']) ≠ .fault .bounds) ∧
    (∀ i : Int, 0 ≤ i → i < (advance (printf banner (start input3)) ['3']).size →
      i < 100 ∧ ∃ v, load (advance (printf banner (start input3)) ['3']).numbers i = .ok v) ∧
    (∀ s1, (advance (printf banner (start input3)) ['3']).size < MAX_SIZE →
      loopBody (advance (printf banner (start input3)) ['3']) = .next s1 →
      s1.size = (advance (printf banner (start input3)) ['3']).size + 1 ∧
      ∃ v, buffer s1 = buffer (advance (printf banner (start input3)) ['3']) ++ [some v]) :=
  collect_invariant input3 (advance (printf banner (start input3)) ['3'])
    (Reachable.next (printf banner (start input3)) _ Reachable.entry (by decide) rfl)

/-! ## Properties of the coercion of tokens -/

theorem atoiDigits_stop (acc : Int) (cs : List Char) (h : leadsWithDigit cs = false) :
    atoiDigits acc cs = acc := by
  cases cs with
  | nil => rfl
  | cons c cs =>
    simp only [leadsWithDigit] at h
    simp [atoiDigits, h]

theorem dropWhile_isspace_cons (c : Char) (cs : List Char) (h : isspace c = false) :
    (c :: cs).dropWhile isspace = c :: cs := by
  simp [List.dropWhile, h]

theorem token_head (t : Token) : ∃ c cs, t.chars = c :: cs ∧ isspace c = false := by
  have hwf := t.wf
  cases hc : t.chars with
  | nil => rw [hc] at hwf; simp [wellFormed] at hwf
  | cons c cs =>
    rw [hc] at hwf
    simp only [wellFormed, List.all_cons, Bool.and_eq_true, Bool.not_eq_true'] at hwf
    exact ⟨c, cs, rfl, hwf.2.1.1⟩

theorem atoi_nonnumeric (t : Token) (hnum : startsNumeric t.chars = false) :
    atoi t.chars = 0 := by
  obtain ⟨c, cs, hc, hsp⟩ := token_head t
  rw [hc] at hnum ⊢
  simp only [startsNumeric, Bool.or_eq_false_iff, Bool.and_eq_false_iff] at hnum
  obtain ⟨hdig, hsign⟩ := hnum
  unfold atoi
  rw [dropWhile_isspace_cons c cs hsp]
  simp only
  by_cases hm : c = '-'
  · have hl : leadsWithDigit cs = false := by
      rcases hsign with h | h
      · simp [hm] at h
      · exact h
    rw [if_pos hm, atoiDigits_stop 0 cs hl]
    decide
  · by_cases hp : c = '+'
    · have hl : leadsWithDigit cs = false := by
        rcases hsign with h | h
        · simp [hp] at h
        · exact h
      rw [if_neg hm, if_pos hp, atoiDigits_stop 0 cs hl]
      decide
    · rw [if_neg hm, if_neg hp, atoiDigits_stop 0 (c :: cs) (by simpa [leadsWithDigit] using hdig)]
      decide

theorem forLoop_zero_entry (s : State) (i : Int) (d fd : Nat) (hi : i < s.size)
    (hl : load s.numbers i = .ok 0) :
    forLoop (fd + 1) (d + 1) i s =
      forLoop (fd + 1) d (wrap32 (i + 1)) (printf "0! = 1\n" s) := by
  rw [forLoop, if_pos hi, hl]
  rfl

theorem loopBody_token (t : Token) (s : State) (rest : List Token) (hinv : Inv s)
    (hlt : s.size < MAX_SIZE) (hin : s.stdin = t :: rest) (hq : isQuit t.chars = false) :
    ∃ s1, loopBody s = .next s1 ∧ s1.size = s.size + 1 ∧
      buffer s1 = buffer s ++ [some (atoi t.chars)] ∧ s1.stdin = rest := by
  have hcur : current s = some t.chars := by
    unfold current
    rw [hin]
  refine ⟨advance s t.chars, loopBody_next s t.chars hinv hlt hcur hq, rfl,
    advance_buffer s t.chars hinv hlt, ?_⟩
  simp [advance, hin]

/-- C8, counterexample: the token `q` is non-numeric (its coercion would be `0`), yet
given to the collection loop it is the sentinel: nothing is appended, the Numbers Buffer
stays empty and the output has no line `0! = 1`. -/
theorem nonnumeric_sentinel_counterexample :
    startsNumeric ['q'] = false ∧ atoi ['q'] = 0 ∧
    (∃ s, whileLoop 101 (printf banner (start inputQ)) = .ok s ∧ buffer s = []) ∧
    main 2 inputQ = .ok (0, [banner, "Number 1: ", header]) := by
  refine ⟨by decide, by decide, ?_, rfl⟩
  obtain ⟨s, hrun, _, hbuf, _, _⟩ := collect_quit [] (tok ['q'] rfl) [] (by decide)
    (by simp) rfl
  exact ⟨s, hrun, hbuf⟩

/-- C8, amended: for every non-numeric token `t` whose first character is not `q`/`Q`,
given to the collection loop, no error is raised: the pass through the loop body appends
the coerced value `0` to the Numbers Buffer, and the result line written for an entry `0`
is `0! = 1`; for example the input `abc q` yields the single result line `0! = 1`. -/
theorem nonnumeric_token_zero (t : Token) (hnum : startsNumeric t.chars = false)
    (hq : isQuit t.chars = false) :
    atoi t.chars = 0 ∧
    (∀ (s : State) (rest : List Token), Inv s → s.size < MAX_SIZE → s.stdin = t :: rest →
      ∃ s1, loopBody s = .next s1 ∧ s1.size = s.size + 1 ∧
        buffer s1 = buffer s ++ [some 0] ∧ s1.stdin = rest) ∧
    (∀ (s : State) (i : Int) (d fd : Nat), i < s.size → load s.numbers i = .ok 0 →
      forLoop (fd + 1) (d + 1) i s =
        forLoop (fd + 1) d (wrap32 (i + 1)) (printf "0! = 1\n" s)) ∧
    main 3 inputAbc = .ok (0, [banner, "Number 1: ", "Number 2: ", header, "0! = 1\n"]) := by
  have hz := atoi_nonnumeric t hnum
  refine ⟨hz, ?_, ?_, rfl⟩
  · intro s rest hinv hlt hin
    have h := loopBody_token t s rest hinv hlt hin hq
    rw [hz] at h
    exact h
  · intro s i d fd hi hl
    exact forLoop_zero_entry s i d fd hi hl

theorem nonnumeric_token_zero_witness :
    atoi ['a', 'b', 'c'] = 0 ∧
    (∀ (s : State) (rest : List Token), Inv s → s.size < MAX_SIZE →
      s.stdin = tok ['a', 'b', 'c'] rfl :: rest →
      ∃ s1, loopBody s = .next s1 ∧ s1.size = s.size + 1 ∧
        buffer s1 = buffer s ++ [some 0] ∧ s1.stdin = rest) ∧
    (∀ (s : State) (i : Int) (d fd : Nat), i < s.size → load s.numbers i = .ok 0 →
      forLoop (fd + 1) (d + 1) i s =
        forLoop (fd + 1) d (wrap32 (i + 1)) (printf "0! = 1\n" s)) ∧
    main 3 inputAbc = .ok (0, [banner, "Number 1: ", "Number 2: ", header, "0! = 1\n"]) :=
  nonnumeric_token_zero (tok ['a', 'b', 'c'] rfl) (by decide) (by decide)

theorem decimalValue_cons (c : Char) (ds : List Char) :
    decimalValue (c :: ds) = (c.toNat - 48) * 10 ^ ds.length + decimalValue ds := by
  unfold decimalValue
  rw [List.map_cons, List.reverse_cons, Nat.ofDigits_append, Nat.ofDigits_singleton]
  simp only [List.length_reverse, List.length_map]
  ring

theorem atoiDigits_digits : ∀ (ds rest : List Char) (acc : Int),
    (∀ c ∈ ds, isdigit c = true) → leadsWithDigit rest = false →
    atoiDigits acc (ds ++ rest) = acc * 10 ^ ds.length + (decimalValue ds : Int) := by
  intro ds
  induction ds with
  | nil =>
    intro rest acc _ hrest
    rw [List.nil_append, atoiDigits_stop acc rest hrest]
    simp [decimalValue]
  | cons c ds ih =>
    intro rest acc hd hrest
    have hc : isdigit c = true := hd c (List.mem_cons_self _ _)
    have h48 : 48 ≤ c.toNat := by
      simp only [isdigit, Bool.and_eq_true, decide_eq_true_eq] at hc
      exact hc.1
    have hcast : ((c.toNat : Int) - 48) = ((c.toNat - 48 : Nat) : Int) := by omega
    rw [List.cons_append, atoiDigits, if_pos hc,
      ih rest _ (fun u hu => hd u (List.mem_cons_of_mem _ hu)) hrest,
      decimalValue_cons, hcast]
    simp only [List.length_cons]
    push_cast
    ring

theorem digit_not_special (c : Char) (hc : isdigit c = true) :
    isspace c = false ∧ c ≠ '-' ∧ c ≠ '+' ∧ c ≠ 'q' ∧ c ≠ 'Q' := by
  simp only [isdigit, Bool.and_eq_true, decide_eq_true_eq] at hc
  refine ⟨?_, ?_, ?_, ?_, ?_⟩
  · simp only [isspace, Bool.or_eq_false_iff, Bool.and_eq_false_iff, beq_eq_false_iff_ne,
      decide_eq_false_iff_not]
    omega
  · rintro rfl
    revert hc
    decide
  · rintro rfl
    revert hc
    decide
  · rintro rfl
    revert hc
    decide
  · rintro rfl
    revert hc
    decide

theorem atoi_digits (ds rest : List Char) (hne : ds ≠ [])
    (hd : ∀ c ∈ ds, isdigit c = true) (hrest : leadsWithDigit rest = false)
    (hfit : (decimalValue ds : Int) ≤ INT_MAX) :
    atoi (ds ++ rest) = (decimalValue ds : Int) ∧ isQuit (ds ++ rest) = false := by
  cases ds with
  | nil => exact absurd rfl hne
  | cons c ds =>
    obtain ⟨hsp, hm, hp, hq1, hq2⟩ := digit_not_special c (hd c (List.mem_cons_self _ _))
    constructor
    · unfold atoi
      rw [List.cons_append, dropWhile_isspace_cons c _ hsp]
      simp only
      rw [if_neg hm, if_neg hp, ← List.cons_append, atoiDigits_digits (c :: ds) rest 0 hd hrest]
      simp only [zero_mul, zero_add]
      apply wrap32_of_isInt
      unfold isInt INT_MIN
      exact ⟨by omega, hfit⟩
    · simp [isQuit, hq1, hq2]

/-- C9: an accepted token is converted by parsing its leading digits only: for every
string made of a non-empty run of decimal digits `ds` followed by characters that do not
continue it with a digit, whose value fits `int`, `atoi` yields the integer denoted by
`ds`, the string is not a sentinel, and a pass of the collection loop that reads such a
token appends that integer; in particular `5q` is appended as `5` and `12abc` as `12`. -/
theorem leading_digits_parsed (ds rest : List Char) (hne : ds ≠ [])
    (hd : ∀ c ∈ ds, isdigit c = true) (hrest : leadsWithDigit rest = false)
    (hfit : (decimalValue ds : Int) ≤ INT_MAX) :
    atoi (ds ++ rest) = (decimalValue ds : Int) ∧ isQuit (ds ++ rest) = false ∧
    (∀ (t : Token) (s : State) (tail : List Token), t.chars = ds ++ rest → Inv s →
      s.size < MAX_SIZE → s.stdin = t :: tail →
      ∃ s1, loopBody s = .next s1 ∧ s1.size = s.size + 1 ∧
        buffer s1 = buffer s ++ [some (decimalValue ds : Int)] ∧ s1.stdin = tail) ∧
    (∃ s, whileLoop 101 (printf banner (start input5q)) = .ok s ∧
      buffer s = [some 5, some 12]) := by
  obtain ⟨hval, hnq⟩ := atoi_digits ds rest hne hd hrest hfit
  refine ⟨hval, hnq, ?_, ?_⟩
  · intro t s tail ht hinv hlt hin
    have h := loopBody_token t s tail hinv hlt hin (by rw [ht]; exact hnq)
    rw [ht, hval] at h
    exact h
  · obtain ⟨s, hrun, _, hbuf, _, _⟩ := collect_quit
      [tok ['5', 'q'] rfl, tok ['1', '2', 'a', 'b', 'c'] rfl] (tok ['q'] rfl) []
      (by decide) (by decide) rfl
    exact ⟨s, hrun, hbuf⟩

theorem leading_digits_parsed_witness :
    atoi (['1', '2'] ++ ['a', 'b', 'c']) = (decimalValue ['1', '2'] : Int) ∧
    isQuit (['1', '2'] ++ ['a', 'b', 'c']) = false ∧
    (∀ (t : Token) (s : State) (tail : List Token), t.chars = ['1', '2'] ++ ['a', 'b', 'c'] →
      Inv s → s.size < MAX_SIZE → s.stdin = t :: tail →
      ∃ s1, loopBody s = .next s1 ∧ s1.size = s.size + 1 ∧
        buffer s1 = buffer s ++ [some (decimalValue ['1', '2'] : Int)] ∧ s1.stdin = tail) ∧
    (∃ s, whileLoop 101 (printf banner (start input5q)) = .ok s ∧
      buffer s = [some 5, some 12]) :=
  leading_digits_parsed ['1', '2'] ['a', 'b', 'c'] (List.cons_ne_nil _ _) (by decide)
    (by decide) (by decide)

/-! ## Further properties of `factorial` -/

theorem callArgs_pos : ∀ (d : Nat) (n : Int), 1 ≤ n → n ≤ INT_MAX →
    callArgs d n = (List.range (min d n.toNat)).map (fun (k : Nat) => n - (k : Int)) := by
  intro d
  induction d with
  | zero => intro n _ _; simp [callArgs]
  | succ d ih =>
    intro n h1 hmax
    by_cases hn : n = 1
    · subst hn
      have e : min (d + 1) (1 : Int).toNat = 1 := by
        have : (1 : Int).toNat = 1 := rfl
        omega
      rw [callArgs, if_pos (Or.inr rfl), e]
      rfl
    · have hb : ¬ (n = 0 ∨ n = 1) := by omega
      have hw : wrap32 (n - 1) = n - 1 := wrap32_pred (by omega) hmax
      have e : min (d + 1) n.toNat = min d (n - 1).toNat + 1 := by omega
      rw [callArgs, if_neg hb, hw, ih (n - 1) (by omega) (by omega), e, List.range_succ_eq_map]
      simp only [List.map_cons, List.map_map, Nat.cast_zero, sub_zero, List.cons.injEq, true_and]
      apply List.map_congr_left
      intro k _
      simp only [Function.comp_apply, Nat.succ_eq_add_one]
      push_cast
      ring

/-- C13: for every `int` `n ≥ 0` the call `factorial(n)` terminates.  For `n ≥ 1` the
arguments of the nested activations are `n, n-1, ..., 1`, each one less than the one
before and none negative: the base case is met after exactly `n - 1` recursive calls (the
call returns with `n` activations and with no fewer).  For `n = 0` the call returns with
no recursive call. -/
theorem factorial_terminates (n : Int) (h0 : 0 ≤ n) (hmax : n ≤ INT_MAX) :
    (1 ≤ n →
      (∃ v, factorial n.toNat n = some v) ∧
      (∀ d : Nat, d < n.toNat → factorial d n = none) ∧
      (∀ d : Nat, n.toNat ≤ d →
        callArgs d n = (List.range n.toNat).map (fun (k : Nat) => n - (k : Int)) ∧
        (callArgs d n).length = (n.toNat - 1) + 1)) ∧
    (n = 0 → factorial 1 n = some 1 ∧ ∀ d : Nat, 1 ≤ d → callArgs d n = [0]) ∧
    (∀ (d : Nat), ∀ a ∈ callArgs d n, 0 ≤ a ∧ a ≤ n) := by
  have hint : isInt n := by
    unfold isInt INT_MIN
    exact ⟨by omega, hmax⟩
  refine ⟨?_, ?_, ?_⟩
  · intro h1
    have hdepth : depth n = n.toNat := by
      unfold depth
      rw [if_neg (by omega), if_pos (by omega)]
    refine ⟨?_, ?_, ?_⟩
    · exact factorial_some_at_depth n.toNat n hint hdepth
    · intro d hd
      exact factorial_none_of_lt_depth d n hint (by rw [hdepth]; exact hd)
    · intro d hd
      have hc := callArgs_pos d n h1 hmax
      rw [Nat.min_eq_right hd] at hc
      refine ⟨hc, ?_⟩
      rw [hc]
      simp only [List.length_map, List.length_range]
      omega
  · intro hz
    subst hz
    refine ⟨rfl, ?_⟩
    intro d hd
    obtain ⟨e, rfl⟩ : ∃ e, d = e + 1 := ⟨d - 1, by omega⟩
    simp [callArgs]
  · intro d a ha
    rcases Int.lt_or_le n 1 with hlt | hge
    · have hz : n = 0 := by omega
      subst hz
      cases d with
      | zero => simp [callArgs] at ha
      | succ e =>
        simp only [callArgs, true_or, if_true, List.mem_singleton] at ha
        omega
    · rw [callArgs_pos d n hge hmax] at ha
      simp only [List.mem_map, List.mem_range] at ha
      obtain ⟨k, hk, rfl⟩ := ha
      omega

theorem factorial_terminates_witness :
    ((1 : Int) ≤ 5 →
      (∃ v, factorial (5 : Int).toNat 5 = some v) ∧
      (∀ d : Nat, d < (5 : Int).toNat → factorial d 5 = none) ∧
      (∀ d : Nat, (5 : Int).toNat ≤ d →
        callArgs d 5 = (List.range (5 : Int).toNat).map (fun (k : Nat) => (5 : Int) - (k : Int)) ∧
        (callArgs d 5).length = ((5 : Int).toNat - 1) + 1)) ∧
    ((5 : Int) = 0 → factorial 1 5 = some 1 ∧ ∀ d : Nat, 1 ≤ d → callArgs d 5 = [0]) ∧
    (∀ (d : Nat), ∀ a ∈ callArgs d 5, 0 ≤ a ∧ a ≤ 5) :=
  factorial_terminates 5 (by decide) (by decide)

/-- C14: `12` is the largest input for which `factorial` is exact: `factorial(12)` is
`12! = 479001600`, and for every `int` `n ≥ 13` the value that `factorial(n)` returns
under 32-bit wrapping differs from the mathematical `n!`, which exceeds `INT_MAX`. -/
theorem factorial_inexact_from_13 (n : Int) (h13 : 13 ≤ n) (hmax : n ≤ INT_MAX) :
    (∃ v, factorial (n.toNat + 1) n = some v ∧ v ≤ INT_MAX ∧
      INT_MAX < ((Nat.factorial n.toNat : Nat) : Int) ∧
      v ≠ ((Nat.factorial n.toNat : Nat) : Int)) ∧
    factorial 13 12 = some 479001600 ∧ Nat.factorial 12 = 479001600 := by
  refine ⟨?_, by decide, by decide⟩
  obtain ⟨k, rfl⟩ := Int.eq_ofNat_of_zero_le (by omega : 0 ≤ n)
  have hk : 13 ≤ k := by omega
  have hle : Nat.factorial 13 ≤ Nat.factorial k := Nat.factorial_le hk
  have h13f : Nat.factorial 13 = 6227020800 := by decide
  rw [h13f] at hle
  have hr := factorial_nonneg_eq k hmax
  have hi := wrap32_isInt ((Nat.factorial k : Nat) : Int)
  have hbig : INT_MAX < ((Nat.factorial k : Nat) : Int) := by
    unfold INT_MAX
    omega
  refine ⟨wrap32 ((Nat.factorial k : Nat) : Int), by simpa using hr, hi.2, by simpa using hbig, ?_⟩
  simp only [Int.toNat_ofNat]
  have := hi.2
  omega

theorem factorial_inexact_from_13_witness :
    (∃ v, factorial ((13 : Int).toNat + 1) 13 = some v ∧ v ≤ INT_MAX ∧
      INT_MAX < ((Nat.factorial (13 : Int).toNat : Nat) : Int) ∧
      v ≠ ((Nat.factorial (13 : Int).toNat : Nat) : Int)) ∧
    factorial 13 12 = some 479001600 ∧ Nat.factorial 12 = 479001600 :=
  factorial_inexact_from_13 13 (by decide) (by decide)

theorem two32_dvd_factorial (k : Nat) (hk : 34 ≤ k) : 4294967296 ∣ Nat.factorial k := by
  have h34 : 4294967296 ∣ Nat.factorial 34 := by decide
  exact Nat.dvd_trans h34 (Nat.factorial_dvd_factorial hk)

theorem two32_not_dvd_factorial (k : Nat) (hk : k ≤ 33) : ¬ 4294967296 ∣ Nat.factorial k := by
  intro h
  have h33 : ¬ 4294967296 ∣ Nat.factorial 33 := by decide
  exact h33 (Nat.dvd_trans h (Nat.factorial_dvd_factorial hk))

theorem wrap32_eq_zero_iff (x : Int) : wrap32 x = 0 ↔ (4294967296 : Int) ∣ x := by
  unfold wrap32
  constructor
  · intro h
    exact Int.dvd_of_emod_eq_zero (by omega)
  · intro h
    have := Int.emod_eq_zero_of_dvd h
    omega

theorem factorial_large_eq_zero (n : Int) (h34 : 34 ≤ n) (hmax : n ≤ INT_MAX) :
    factorial (n.toNat + 1) n = some 0 := by
  obtain ⟨k, rfl⟩ := Int.eq_ofNat_of_zero_le (by omega : 0 ≤ n)
  have hr := factorial_nonneg_eq k hmax
  have hz : wrap32 ((Nat.factorial k : Nat) : Int) = 0 :=
    (wrap32_eq_zero_iff _).2 (Int.natCast_dvd_natCast.2 (two32_dvd_factorial k (by omega)))
  rw [hz] at hr
  simpa using hr

theorem resultLine_zero (n : Int) : resultLine n 0 = toString n ++ "! = 0\n" := by
  unfold resultLine fmtD
  rw [String.append_assoc, String.append_assoc]
  rfl

set_option maxRecDepth 20000 in
theorem main_input34 : main 35 input34 =
    .ok (0, [banner, "Number 1: ", "Number 2: ", header, "34! = 0\n"]) := by
  rfl

/-- C15: under 32-bit wrapping `factorial(n) = 0` for every `int` `n ≥ 34`, because `n!`
is then divisible by `2^32`, while `factorial(n)` is non-zero for every `0 ≤ n ≤ 33`; so
for every entry `n ≥ 34` of the Numbers Buffer the line written is `<n>! = 0`, as on the
input `34 q`. -/
theorem factorial_zero_from_34 (n : Int) (h0 : 0 ≤ n) (hmax : n ≤ INT_MAX) :
    (34 ≤ n → factorial (n.toNat + 1) n = some 0 ∧
      4294967296 ∣ Nat.factorial n.toNat) ∧
    (n ≤ 33 → ∃ v, factorial (n.toNat + 1) n = some v ∧ v ≠ 0) ∧
    (34 ≤ n → ∀ (s : State) (i : Int) (d : Nat), i < s.size → load s.numbers i = .ok n →
      forLoop (n.toNat + 1) (d + 1) i s =
        forLoop (n.toNat + 1) d (wrap32 (i + 1)) (printf (toString n ++ "! = 0\n") s)) ∧
    main 35 input34 =
      .ok (0, [banner, "Number 1: ", "Number 2: ", header, "34! = 0\n"]) := by
  refine ⟨?_, ?_, ?_, main_input34⟩
  · intro h34
    refine ⟨factorial_large_eq_zero n h34 hmax, ?_⟩
    exact two32_dvd_factorial n.toNat (by omega)
  · intro h33
    obtain ⟨k, rfl⟩ := Int.eq_ofNat_of_zero_le h0
    have hr := factorial_nonneg_eq k hmax
    refine ⟨wrap32 ((Nat.factorial k : Nat) : Int), by simpa using hr, ?_⟩
    intro hz
    have hd := (wrap32_eq_zero_iff _).1 hz
    exact two32_not_dvd_factorial k (by omega) (Int.natCast_dvd_natCast.1 hd)
  · intro h34 s i d hi hl
    rw [forLoop, if_pos hi, hl]
    simp only [factorial_large_eq_zero n h34 hmax, resultLine_zero]

theorem factorial_zero_from_34_witness :
    ((34 : Int) ≤ 40 → factorial ((40 : Int).toNat + 1) 40 = some 0 ∧
      4294967296 ∣ Nat.factorial (40 : Int).toNat) ∧
    ((40 : Int) ≤ 33 → ∃ v, factorial ((40 : Int).toNat + 1) 40 = some v ∧ v ≠ 0) ∧
    ((34 : Int) ≤ 40 → ∀ (s : State) (i : Int) (d : Nat), i < s.size →
      load s.numbers i = .ok 40 →
      forLoop ((40 : Int).toNat + 1) (d + 1) i s =
        forLoop ((40 : Int).toNat + 1) d (wrap32 (i + 1))
          (printf (toString (40 : Int) ++ "! = 0\n") s)) ∧
    main 35 input34 =
      .ok (0, [banner, "Number 1: ", "Number 2: ", header, "34! = 0\n"]) :=
  factorial_zero_from_34 40 (by decide) (by decide)

/-! ## Further properties of `main` -/

theorem scanf_eof (s : State) (h : s.stdin = []) : scanf s = s := by
  unfold scanf
  rw [h]

/-- C16: end of input is not a stop condition.  A `scanf` at end of input leaves the state,
and so the token buffer, unchanged, and its result is not consulted; if standard input
ends after `k` tokens with `1 ≤ k < 100`, none of them a sentinel, the collection loop
iterates until capacity: the Numbers Buffer ends with exactly 100 elements, the first `k`
being the coercions of the tokens and the elements `k+1` to `100` all being the coercion
of the last token. -/
theorem collect_past_end_of_input (tokens : List Token) (hne : tokens ≠ [])
    (hlen : tokens.length < 100) (hacc : ∀ t ∈ tokens, isQuit t.chars = false) :
    (∀ s : State, s.stdin = [] → scanf s = s) ∧
    ∃ s, whileLoop 101 (printf banner (start tokens)) = .ok s ∧
      s.size = 100 ∧ (buffer s).length = 100 ∧ s.stdin = [] ∧
      (buffer s).take tokens.length = tokens.map (fun t => some (atoi t.chars)) ∧
      ∀ j : Nat, tokens.length ≤ j → j < 100 →
        (buffer s)[j]? = some (some (atoi (tokens.getLast hne).chars)) := by
  refine ⟨scanf_eof, ?_⟩
  obtain ⟨s, hrun, hsize, hbuf, hstd, _⟩ := collect_eof tokens hne hlen hacc
  have hml : (tokens.map cell).length = tokens.length := List.length_map _ _
  refine ⟨s, hrun, hsize, ?_, hstd, ?_, ?_⟩
  · rw [hbuf]
    simp only [List.length_append, List.length_map, List.length_replicate]
    omega
  · rw [hbuf, List.take_append_of_le_length (by rw [hml]), List.take_of_length_le (by rw [hml])]
    rfl
  · intro j hj hj100
    rw [hbuf, List.getElem?_append_right (by rw [hml]; exact hj), hml,
      List.getElem?_replicate, if_pos (by omega)]
    rfl

theorem collect_past_end_of_input_witness :
    (∀ s : State, s.stdin = [] → scanf s = s) ∧
    ∃ s, whileLoop 101 (printf banner (start input3)) = .ok s ∧
      s.size = 100 ∧ (buffer s).length = 100 ∧ s.stdin = [] ∧
      (buffer s).take input3.length = input3.map (fun t => some (atoi t.chars)) ∧
      ∀ j : Nat, input3.length ≤ j → j < 100 →
        (buffer s)[j]? =
          some (some (atoi (input3.getLast (List.cons_ne_nil _ _)).chars)) :=
  collect_past_end_of_input input3 (List.cons_ne_nil _ _) (by decide) (by decide)

theorem main_of_collected (tokens : List Token) (d0 : Nat) (s : State) (vs : List Int)
    (f : Int → Int) (hrun : whileLoop d0 (printf banner (start tokens)) = .ok s)
    (hbuf : buffer s = vs.map some) (d : Nat) (hd : d0 ≤ d) (hd100 : 100 < d)
    (hf : ∀ v ∈ vs, factorial d v = some (f v)) :
    main d tokens = .ok (0, s.stdout ++ header :: vs.map (fun v => resultLine v (f v))) := by
  have hreach := whileLoop_reachable tokens d0 _ s Reachable.entry hrun
  obtain ⟨⟨hlen, h0, hmax⟩, _⟩ := reachable_inv tokens s hreach
  have hsz : s.size.toNat = vs.length := by
    have := congrArg List.length hbuf
    unfold buffer at this
    simp only [List.length_take, List.length_map] at this
    unfold MAX_SIZE at hlen hmax
    omega
  have hnum : s.numbers.drop (0 : Int).toNat = vs.map some ++ s.numbers.drop s.size.toNat := by
    have := List.take_append_drop s.size.toNat s.numbers
    unfold buffer at hbuf
    rw [hbuf] at this
    simpa using this.symm
  have hvl : vs.length ≤ 100 := by
    unfold MAX_SIZE at hmax
    omega
  have hfor := forLoop_run d f vs (s.numbers.drop s.size.toNat) 0 (printf header s) d
    (le_refl 0) (by simp only [printf]; omega) hmax hnum hf (by omega)
  rw [main_of_loops d tokens s _ (whileLoop_mono hd hrun) hfor]
  show Except.ok (0, (s.stdout ++ [header]) ++ vs.map _) = _
  rw [List.append_assoc]
  simp only [List.singleton_append]

theorem main_ok_code (d : Nat) (tokens : List Token) (r : Int × List String)
    (h : main d tokens = .ok r) : r.1 = 0 := by
  unfold main at h
  cases hw : whileLoop d (printf banner (start tokens)) with
  | error f => rw [hw] at h; cases h
  | ok s =>
    rw [hw] at h
    simp only at h
    cases hfl : forLoop d d 0 (printf header s) with
    | error f => rw [hfl] at h; cases h
    | ok s1 =>
      rw [hfl] at h
      simp only [Except.ok.injEq] at h
      rw [← h]

/-- Every non-empty input lets the collection loop return. -/
theorem collect_total (tokens : List Token) (hne : tokens ≠ []) :
    ∃ s, whileLoop 101 (printf banner (start tokens)) = .ok s := by
  have hsplit := List.takeWhile_append_dropWhile accepted tokens
  have hpre : ∀ t ∈ tokens.takeWhile accepted, isQuit t.chars = false := by
    intro t ht
    have := List.mem_takeWhile_imp ht
    simpa [accepted] using this
  by_cases hfull : 100 ≤ (tokens.takeWhile accepted).length
  · have hlen : 100 ≤ tokens.length := by
      have := congrArg List.length hsplit
      simp only [List.length_append] at this
      omega
    have htake : tokens.take 100 = (tokens.takeWhile accepted).take 100 := by
      conv_lhs => rw [← hsplit]
      exact List.take_append_of_le_length hfull
    obtain ⟨s, hrun, _⟩ := collect_full tokens hlen (by
      intro t ht
      rw [htake] at ht
      exact hpre t (List.mem_of_mem_take ht))
    exact ⟨s, hrun⟩
  · cases hd : tokens.dropWhile accepted with
    | nil =>
      rw [hd, List.append_nil] at hsplit
      rw [hsplit] at hpre hfull
      obtain ⟨s, hrun, _⟩ := collect_eof tokens hne (by omega) hpre
      exact ⟨s, hrun⟩
    | cons q rest =>
      have hq : isQuit q.chars = true := by
        have := List.head?_dropWhile_not accepted tokens
        rw [hd] at this
        simpa [accepted] using this
      obtain ⟨s, hrun, _⟩ :=
        collect_quit (tokens.takeWhile accepted) q rest (by omega) hpre hq
      rw [← hd, hsplit] at hrun
      exact ⟨s, hrun⟩

/-- C12: `main` has no error exit path: whenever `main` returns, its exit code is `0`;
the collection loop returns on every non-empty input; and for every input on which
collection returns a Numbers Buffer whose values are all non-negative, the evaluation
returns as well, so that `main` returns exit code `0` for every sufficient depth. -/
theorem main_returns_zero (tokens : List Token) :
    (∀ (d : Nat) (r : Int × List String), main d tokens = .ok r → r.1 = 0) ∧
    (tokens ≠ [] → ∃ s, whileLoop 101 (printf banner (start tokens)) = .ok s) ∧
    (∀ (d0 : Nat) (s : State), whileLoop d0 (printf banner (start tokens)) = .ok s →
      (∀ v : Int, some v ∈ buffer s → 0 ≤ v) →
      ∃ d1, ∀ d, d1 ≤ d → ∃ out, main d tokens = .ok (0, out)) := by
  refine ⟨fun d r h => main_ok_code d tokens r h, collect_total tokens, ?_⟩
  intro d0 s hrun hnn
  have hreach := whileLoop_reachable tokens d0 _ s Reachable.entry hrun
  obtain ⟨_, ⟨vs, hvs, hint⟩⟩ := reachable_inv tokens s hreach
  refine ⟨d0 + 2147483648 + 101, ?_⟩
  intro d hd
  have hf : ∀ v ∈ vs, factorial d v = some (wrap32 ((Nat.factorial v.toNat : Nat) : Int)) := by
    intro v hv
    have hv0 : 0 ≤ v := hnn v (by rw [hvs]; exact List.mem_map_of_mem _ hv)
    have h := factorial_nonneg_eq v.toNat (by rw [Int.toNat_of_nonneg hv0]; exact (hint v hv).2)
    rw [Int.toNat_of_nonneg hv0] at h
    have hle := (hint v hv).2
    unfold INT_MAX at hle
    exact factorial_mono (by omega) h
  exact ⟨_, main_of_collected tokens d0 s vs _ hrun hvs d (by omega) (by omega) hf⟩

theorem main_returns_zero_witness :
    (∃ s, whileLoop 101 (printf banner (start input35q)) = .ok s) ∧
    ∃ d1, ∀ d, d1 ≤ d → ∃ out, main d input35q = .ok (0, out) := by
  obtain ⟨s, hrun, _, hbuf, _, _⟩ :=
    collect_quit [tok ['3'] rfl, tok ['5'] rfl] (tok ['q'] rfl) [] (by decide) (by decide) rfl
  have hcells : [tok ['3'] rfl, tok ['5'] rfl].map cell = [some 3, some 5] := by decide
  refine ⟨⟨s, hrun⟩, (main_returns_zero input35q).2.2 101 s hrun ?_⟩
  intro v hv
  rw [hbuf, hcells] at hv
  simp only [List.mem_cons, Option.some.injEq, List.mem_singleton, List.not_mem_nil,
    or_false] at hv
  omega

theorem promptsFrom_zero (n : Nat) (hn : n ≤ 2147483647) : promptsFrom 0 n = promptsUpTo n := by
  have h := promptsFrom_nat n 0 (by omega)
  simp only [Nat.zero_add] at h
  exact h

theorem promptsFrom_snoc (n : Nat) : promptsFrom 0 (n + 1) = promptsFrom 0 n ++ [prompt n] := by
  rw [promptsFrom_append n 1 0]
  simp [promptsFrom]

theorem loopHead_inv (tokens : List Token) (s : State) (h : LoopHead tokens s) :
    Inv s ∧ s.stdout = banner :: promptsFrom 0 s.size.toNat ∧
      s.stdin = tokens.drop s.size.toNat := by
  induction h with
  | entry => exact ⟨start_inv tokens, rfl, rfl⟩
  | next s s1 _ hlt hb ih =>
    obtain ⟨hinv, hout, hin⟩ := ih
    rcases loopBody_cases s hinv hlt with ⟨_, h⟩ | ⟨buf, _, _, h⟩ | ⟨buf, _, _, h⟩
    · rw [h] at hb; cases hb
    · rw [h] at hb; cases hb
    · rw [h] at hb
      cases hb
      have h0 := hinv.2.1
      have e : (s.size + 1).toNat = s.size.toNat + 1 := by omega
      have e2 : ((s.size.toNat : Nat) : Int) = s.size := Int.toNat_of_nonneg h0
      refine ⟨advance_inv s buf hinv hlt, ?_, ?_⟩
      · simp only [advance, e]
        rw [promptsFrom_snoc, e2, hout]
        rfl
      · simp only [advance, e]
        rw [hin, List.tail_drop]

theorem whileLoop_from_head (tokens : List Token) : ∀ (d : Nat) (s s1 : State),
    LoopHead tokens s → whileLoop d s = .ok s1 →
    (LoopHead tokens s1 ∧ ¬ s1.size < MAX_SIZE) ∨
    (∃ s0, LoopHead tokens s0 ∧ s0.size < MAX_SIZE ∧ loopBody s0 = .quit s1) := by
  intro d
  induction d with
  | zero => intro s s1 _ h; simp [whileLoop] at h
  | succ d ih =>
    intro s s1 hh h
    by_cases hlt : s.size < MAX_SIZE
    · simp only [whileLoop, hlt, if_true] at h
      cases hb : loopBody s with
      | next s2 =>
        rw [hb] at h
        exact ih s2 s1 (LoopHead.next s s2 hh hlt hb) h
      | quit s2 =>
        rw [hb] at h
        simp only [Except.ok.injEq] at h
        rw [← h]
        exact Or.inr ⟨s, hh, hlt, hb⟩
      | fault f => rw [hb] at h; simp at h
    · rw [whileLoop_done d s hlt] at h
      simp only [Except.ok.injEq] at h
      rw [← h]
      exact Or.inl ⟨hh, hlt⟩

theorem loopBody_pass (tokens : List Token) (s s1 : State) (hh : LoopHead tokens s)
    (hlt : s.size < MAX_SIZE) (hb : loopBody s = .next s1 ∨ loopBody s = .quit s1) :
    s1.stdout = banner :: promptsFrom 0 (s.size.toNat + 1) ∧
    s1.stdout = s.stdout ++ [prompt s.size] ∧
    s1.stdin = tokens.drop (s.size.toNat + 1) ∧
    s1.input = (scanf (printf (prompt s.size) s)).input ∧
    (loopBody s = .quit s1 → s1.size = s.size) := by
  obtain ⟨hinv, hout, hin⟩ := loopHead_inv tokens s hh
  have e2 : ((s.size.toNat : Nat) : Int) = s.size := Int.toNat_of_nonneg hinv.2.1
  have hp : banner :: promptsFrom 0 (s.size.toNat + 1) = s.stdout ++ [prompt s.size] := by
    rw [promptsFrom_snoc, e2, hout]
    rfl
  rcases loopBody_cases s hinv hlt with ⟨_, h⟩ | ⟨buf, hc, _, h⟩ | ⟨buf, hc, _, h⟩
  · rw [h] at hb
    rcases hb with hb | hb <;> cases hb
  · rw [h] at hb
    rcases hb with hb | hb
    · cases hb
    · cases hb
      refine ⟨by rw [hp]; rfl, rfl, ?_, ?_, fun _ => rfl⟩
      · simp only [leave]
        rw [hin, List.tail_drop]
      · rw [scanf_input, hc]
        rfl
  · rw [h] at hb
    rcases hb with hb | hb
    · cases hb
      refine ⟨by rw [hp]; rfl, rfl, ?_, ?_, ?_⟩
      · simp only [advance]
        rw [hin, List.tail_drop]
      · rw [scanf_input, hc]
        rfl
      · intro hq
        rw [h] at hq
        cases hq
    · cases hb

/-- The prompts as they appear in the states of the collection loop: at every test of the
loop condition the output is the banner followed by `Number 1: ` to `Number size: ` and
exactly the first `size` tokens have been consumed; a pass through the body appends the
prompt with the ordinal `size + 1`; a run that ends has written `size + 1` prompts when a
sentinel stopped it and `size = 100` prompts otherwise. -/
theorem prompts_state_facts (tokens : List Token) :
    (∀ s, LoopHead tokens s →
      s.stdout = banner :: promptsUpTo s.size.toNat ∧
      s.stdin = tokens.drop s.size.toNat) ∧
    (∀ s s1, LoopHead tokens s → s.size < MAX_SIZE →
      (loopBody s = .next s1 ∨ loopBody s = .quit s1) →
      prompt s.size = "Number " ++ toString (s.size.toNat + 1) ++ ": " ∧
      s1.stdout = s.stdout ++ [prompt s.size] ∧
      s1.input = (scanf (printf (prompt s.size) s)).input ∧
      s1.stdin = tokens.drop (s.size.toNat + 1)) ∧
    (∀ (d : Nat) (s : State), whileLoop d (printf banner (start tokens)) = .ok s →
      ∃ p : Nat, s.stdout = banner :: promptsUpTo p ∧
        ((p = s.size.toNat + 1 ∧ ∃ buf, s.input = some buf ∧ isQuit buf = true) ∨
         (p = s.size.toNat ∧ p = 100))) ∧
    (∀ (pre : List Token) (q : Token) (rest : List Token), tokens = pre ++ q :: rest →
      (∀ t ∈ pre, isQuit t.chars = false) → isQuit q.chars = true → pre.length < 100 →
      ∃ s, whileLoop 101 (printf banner (start tokens)) = .ok s ∧
        s.stdout = banner :: promptsUpTo (pre.length + 1)) := by
  have hsize : ∀ s, LoopHead tokens s → s.size.toNat ≤ 100 := by
    intro s hh
    have := (loopHead_inv tokens s hh).1.2.2
    unfold MAX_SIZE at this
    omega
  refine ⟨?_, ?_, ?_, ?_⟩
  · intro s hh
    obtain ⟨_, hout, hin⟩ := loopHead_inv tokens s hh
    have := hsize s hh
    rw [hout, promptsFrom_zero _ (by omega)]
    exact ⟨rfl, hin⟩
  · intro s s1 hh hlt hb
    obtain ⟨_, h2, h3, h4, _⟩ := loopBody_pass tokens s s1 hh hlt hb
    have h0 := (loopHead_inv tokens s hh).1.2.1
    have hs := hsize s hh
    have hp := prompt_nat s.size.toNat (by omega)
    rw [Int.toNat_of_nonneg h0] at hp
    exact ⟨hp, h2, h4, h3⟩
  · intro d s hrun
    rcases whileLoop_from_head tokens d _ s LoopHead.entry hrun with ⟨hh, hge⟩ | ⟨s0, hh, hlt, hb⟩
    · obtain ⟨hinv, hout, _⟩ := loopHead_inv tokens s hh
      have hs := hsize s hh
      have hmax := hinv.2.2
      unfold MAX_SIZE at hge hmax
      refine ⟨s.size.toNat, ?_, Or.inr ⟨rfl, by omega⟩⟩
      rw [hout, promptsFrom_zero _ (by omega)]
    · obtain ⟨h1, _, _, _, h5⟩ := loopBody_pass tokens s0 s hh hlt (Or.inr hb)
      have hs := hsize s0 hh
      have hsz := h5 hb
      obtain ⟨hinv0, _, _⟩ := loopHead_inv tokens s0 hh
      refine ⟨s.size.toNat + 1, ?_, Or.inl ⟨rfl, ?_⟩⟩
      · rw [h1, hsz, promptsFrom_zero _ (by omega)]
      · rcases loopBody_cases s0 hinv0 hlt with ⟨_, h⟩ | ⟨buf, _, hq, h⟩ | ⟨buf, _, _, h⟩
        · rw [h] at hb; cases hb
        · rw [h] at hb
          cases hb
          exact ⟨buf, rfl, hq⟩
        · rw [h] at hb; cases hb
  · intro pre q rest htok hpre hq hk
    obtain ⟨s, hrun, _, _, _, hout⟩ := collect_quit pre q rest hk hpre hq
    rw [← htok] at hrun
    refine ⟨s, hrun, ?_⟩
    rw [hout, promptsFrom_zero _ (by omega)]

/-! ## Facts about the logged collection loop -/

theorem loopBodyLogged_eq (t : Logged) :
    loopBodyLogged t =
      match loopBody t.state with
      | .next s => .next { state := s, events := t.events ++ passEvents t.state }
      | .quit s => .quit { state := s, events := t.events ++ passEvents t.state }
      | .fault f => .fault f := by
  unfold loopBodyLogged loopBody
  simp only [printfLogged, scanfLogged, passEvents, List.append_assoc, List.singleton_append]
  cases hi : (scanf (printf (prompt t.state.size) t.state)).input with
  | none => rfl
  | some buf =>
    simp only
    cases hq : isQuit buf with
    | true => rfl
    | false =>
      simp only [Bool.false_eq_true, if_false]
      cases hs : store (scanf (printf (prompt t.state.size) t.state)).numbers
          (scanf (printf (prompt t.state.size) t.state)).size (atoi buf) with
      | none => rfl
      | some a => rfl

theorem promptReadLog_length (tokens : List Token) : ∀ p : Nat,
    (promptReadLog tokens p).length = 2 * p := by
  intro p
  induction p with
  | zero => rfl
  | succ p ih =>
    simp only [promptReadLog, List.length_append, ih, List.length_cons, List.length_nil]
    omega

/-- In the log of `p` passes the prompt `Number k+1: ` stands at position `2k` and the read
of the token at index `k` right after it, at position `2k + 1`. -/
theorem promptReadLog_get (tokens : List Token) : ∀ (p k : Nat), k < p →
    (promptReadLog tokens p)[2 * k]? =
      some (.wrote ("Number " ++ toString (k + 1) ++ ": ")) ∧
    (promptReadLog tokens p)[2 * k + 1]? =
      some (.read (tokens[k]?.map Token.chars)) := by
  intro p
  induction p with
  | zero => intro k hk; omega
  | succ p ih =>
    intro k hk
    have hl := promptReadLog_length tokens p
    by_cases hkp : k < p
    · obtain ⟨h1, h2⟩ := ih k hkp
      constructor
      · rw [promptReadLog, List.getElem?_append_left (by omega)]
        exact h1
      · rw [promptReadLog, List.getElem?_append_left (by omega)]
        exact h2
    · have hk : k = p := by omega
      subst hk
      constructor
      · rw [promptReadLog, List.getElem?_append_right (by omega), hl, Nat.sub_self]
        rfl
      · rw [promptReadLog, List.getElem?_append_right (by omega), hl]
        have e : 2 * k + 1 - 2 * k = 1 := by omega
        rw [e]
        rfl

theorem passEvents_eq (tokens : List Token) (s : State) (hh : LoopHead tokens s)
    (hlt : s.size < MAX_SIZE) :
    promptReadLog tokens (s.size.toNat + 1) =
      promptReadLog tokens s.size.toNat ++ passEvents s := by
  obtain ⟨hinv, _, hin⟩ := loopHead_inv tokens s hh
  have h0 := hinv.2.1
  have hp := prompt_nat s.size.toNat (by unfold MAX_SIZE at hlt; omega)
  rw [Int.toNat_of_nonneg h0] at hp
  have hhead : s.stdin.head? = tokens[s.size.toNat]? := by
    rw [hin, List.head?_drop]
  rw [promptReadLog, passEvents, hp, hhead]

/-- A logged run from a state at the loop head whose log is the banner followed by the log
of the passes made so far. -/
theorem whileLoopLogged_run (tokens : List Token) : ∀ (d : Nat) (t t1 : Logged),
    LoopHead tokens t.state →
    t.events = .wrote banner :: promptReadLog tokens t.state.size.toNat →
    whileLoopLogged d t = .ok t1 →
    whileLoop d t.state = .ok t1.state ∧
    ∃ p : Nat, t1.events = .wrote banner :: promptReadLog tokens p ∧
      t1.state.stdout = banner :: promptsUpTo p := by
  intro d
  induction d with
  | zero => intro t t1 _ _ h; simp [whileLoopLogged] at h
  | succ d ih =>
    intro t t1 hh hev h
    obtain ⟨hinv, hout, _⟩ := loopHead_inv tokens t.state hh
    have hsz : t.state.size.toNat ≤ 100 := by
      have := hinv.2.2
      unfold MAX_SIZE at this
      omega
    by_cases hlt : t.state.size < MAX_SIZE
    · have hpe := passEvents_eq tokens t.state hh hlt
      rw [whileLoopLogged, if_pos hlt, loopBodyLogged_eq] at h
      rw [whileLoop, if_pos hlt]
      cases hb : loopBody t.state with
      | next s2 =>
        rw [hb] at h
        simp only at h ⊢
        have hh2 := LoopHead.next t.state s2 hh hlt hb
        have hs2 : s2.size.toNat = t.state.size.toNat + 1 := by
          rcases loopBody_cases t.state hinv hlt with ⟨_, hc⟩ | ⟨buf, _, _, hc⟩ | ⟨buf, _, _, hc⟩
          · rw [hc] at hb; cases hb
          · rw [hc] at hb; cases hb
          · rw [hc] at hb
            cases hb
            have := hinv.2.1
            simp only [advance]
            omega
        exact ih { state := s2, events := t.events ++ passEvents t.state } t1 hh2
          (by simp only [hs2, hev, hpe, List.cons_append]) h
      | quit s2 =>
        rw [hb] at h
        simp only [Except.ok.injEq] at h ⊢
        rw [← h]
        obtain ⟨h1, _, _, _, _⟩ := loopBody_pass tokens t.state s2 hh hlt (Or.inr hb)
        refine ⟨rfl, t.state.size.toNat + 1, ?_, ?_⟩
        · simp only [hev, hpe, List.cons_append]
        · simp only [h1]
          rw [promptsFrom_zero _ (by omega)]
      | fault f =>
        rw [hb] at h
        simp at h
    · rw [whileLoopLogged, if_neg hlt] at h
      simp only [Except.ok.injEq] at h
      rw [← h, whileLoop_done d t.state hlt]
      refine ⟨rfl, t.state.size.toNat, hev, ?_⟩
      rw [hout, promptsFrom_zero _ (by omega)]

/-- Every run of the loop is the state part of a logged run. -/
theorem whileLoopLogged_of_run : ∀ (d : Nat) (t : Logged) (s : State),
    whileLoop d t.state = .ok s →
    ∃ t1, whileLoopLogged d t = .ok t1 ∧ t1.state = s := by
  intro d
  induction d with
  | zero => intro t s h; simp [whileLoop] at h
  | succ d ih =>
    intro t s h
    by_cases hlt : t.state.size < MAX_SIZE
    · rw [whileLoop, if_pos hlt] at h
      rw [whileLoopLogged, if_pos hlt, loopBodyLogged_eq]
      cases hb : loopBody t.state with
      | next s2 =>
        rw [hb] at h
        exact ih { state := s2, events := t.events ++ passEvents t.state } s h
      | quit s2 =>
        rw [hb] at h
        simp only [Except.ok.injEq] at h
        exact ⟨{ state := s2, events := t.events ++ passEvents t.state }, rfl, h⟩
      | fault f =>
        rw [hb] at h
        simp at h
    · rw [whileLoop_done d t.state hlt] at h
      simp only [Except.ok.injEq] at h
      exact ⟨t, by rw [whileLoopLogged, if_neg hlt], h⟩

theorem promptsUpTo_length (p : Nat) : (promptsUpTo p).length = p := by
  simp [promptsUpTo]

/-- C11: for every input token sequence the prompts written by the collection loop are
exactly `Number 1: `, `Number 2: `, ..., `Number p: ` in that order, and the `k`-th prompt
is written before the `k`-th token is read.  In the log of the `printf` and `scanf` calls
of a run, the banner is followed, for `k = 1, ..., p` in turn, by the prompt `Number k: `
and directly after it the read of the `k`-th token; the logged loop is the collection loop
itself (its state is that of `whileLoop`, and every run of `whileLoop` has a log).
Whenever the loop condition is tested, the prompts written are `Number 1: ` to
`Number size: ` and the first `size` tokens have been consumed; a pass writes the prompt
with the ordinal `size + 1` of the next free slot; a run that ends has written
`p = size + 1` prompts when a sentinel stopped it and `p = size = 100` otherwise; and when
the sentinel follows `k` accepted tokens, `p = k + 1`. -/
theorem prompts_in_order (tokens : List Token) :
    ((∀ s, LoopHead tokens s →
      s.stdout = banner :: promptsUpTo s.size.toNat ∧
      s.stdin = tokens.drop s.size.toNat) ∧
    (∀ s s1, LoopHead tokens s → s.size < MAX_SIZE →
      (loopBody s = .next s1 ∨ loopBody s = .quit s1) →
      prompt s.size = "Number " ++ toString (s.size.toNat + 1) ++ ": " ∧
      s1.stdout = s.stdout ++ [prompt s.size] ∧
      s1.input = (scanf (printf (prompt s.size) s)).input ∧
      s1.stdin = tokens.drop (s.size.toNat + 1)) ∧
    (∀ (d : Nat) (s : State), whileLoop d (printf banner (start tokens)) = .ok s →
      ∃ p : Nat, s.stdout = banner :: promptsUpTo p ∧
        ((p = s.size.toNat + 1 ∧ ∃ buf, s.input = some buf ∧ isQuit buf = true) ∨
         (p = s.size.toNat ∧ p = 100))) ∧
    (∀ (pre : List Token) (q : Token) (rest : List Token), tokens = pre ++ q :: rest →
      (∀ t ∈ pre, isQuit t.chars = false) → isQuit q.chars = true → pre.length < 100 →
      ∃ s, whileLoop 101 (printf banner (start tokens)) = .ok s ∧
        s.stdout = banner :: promptsUpTo (pre.length + 1))) ∧
    (∀ (d : Nat) (t : Logged),
      whileLoopLogged d (printfLogged banner (startLogged tokens)) = .ok t →
      whileLoop d (printf banner (start tokens)) = .ok t.state ∧
      ∃ p : Nat, t.events = .wrote banner :: promptReadLog tokens p ∧
        t.state.stdout = banner :: promptsUpTo p ∧
        ∀ k : Nat, k < p →
          t.events[2 * k + 1]? = some (.wrote ("Number " ++ toString (k + 1) ++ ": ")) ∧
          t.events[2 * k + 2]? = some (.read (tokens[k]?.map Token.chars))) ∧
    (∀ (d : Nat) (s : State), whileLoop d (printf banner (start tokens)) = .ok s →
      ∃ t, whileLoopLogged d (printfLogged banner (startLogged tokens)) = .ok t ∧
        t.state = s) := by
  refine ⟨prompts_state_facts tokens, ?_, ?_⟩
  · intro d t h
    obtain ⟨hrun, p, hev, hout⟩ := whileLoopLogged_run tokens d
      (printfLogged banner (startLogged tokens)) t LoopHead.entry rfl h
    refine ⟨hrun, p, hev, hout, ?_⟩
    intro k hk
    obtain ⟨h1, h2⟩ := promptReadLog_get tokens p k hk
    rw [hev]
    exact ⟨by rw [List.getElem?_cons_succ]; exact h1,
      by rw [List.getElem?_cons_succ]; exact h2⟩
  · intro d s h
    exact whileLoopLogged_of_run d (printfLogged banner (startLogged tokens)) s h

theorem prompts_in_order_witness :
    ∃ t, whileLoopLogged 101 (printfLogged banner (startLogged input35q)) = .ok t ∧
      t.state.stdout = [banner, "Number 1: ", "Number 2: ", "Number 3: "] ∧
      t.events = [.wrote banner, .wrote "Number 1: ", .read (some ['3']),
        .wrote "Number 2: ", .read (some ['5']), .wrote "Number 3: ", .read (some ['q'])] := by
  obtain ⟨s, hrun, hout⟩ := (prompts_in_order input35q).1.2.2.2
    [tok ['3'] rfl, tok ['5'] rfl] (tok ['q'] rfl) [] rfl (by decide) rfl (by decide)
  obtain ⟨t, hlog, hst⟩ := (prompts_in_order input35q).2.2 101 s hrun
  obtain ⟨_, p, hev, hout2, _⟩ := (prompts_in_order input35q).2.1 101 t hlog
  have hp : p = 3 := by
    rw [hst, hout] at hout2
    have := congrArg List.length hout2
    simp only [List.length_cons, promptsUpTo_length, List.length_nil] at this
    omega
  subst hp
  refine ⟨t, hlog, ?_, ?_⟩
  · rw [hout2]
    decide
  · rw [hev]
    rfl

end Factorial
